import Mathlib

/-!
# Verification of the Minesweeper repository (`minesweeper.py`)

A shallow embedding of the Minesweeper game board, the `Sentence` knowledge
unit, and the `MinesweeperAI` inference engine, followed by theorems settling
the specification claims.

Python sets of cells become `Finset Cell`; the knowledge base (a Python list
with `append`/`remove`-by-value) becomes `List Sentence` with `List.erase`;
Python `int` becomes `Int` (counts, coordinates) or `Nat` (board dimensions,
loop fuel).  Randomness (`random.randrange`, `random.choice`) is modelled by
an explicit stream of draws / a choice index, so every definition stays
executable.  The unbounded `while` loops are modelled with explicit fuel:
`none` means the loop has not finished within the given fuel.
-/

/-- A board cell: a pair of integer coordinates `(row, col)`. -/
abbrev Cell : Type := Int × Int

/-! ## The game board (`Minesweeper` class) -/

/-- `board[i][j]` lookup with Python-faithful in-bounds use only
(out of range gives the default `false`). -/
def boardGet (b : List (List Bool)) (c : Nat × Nat) : Bool :=
  (b.getD c.1 []).getD c.2 false

/-- `board[i][j] = v`. -/
def boardSet (b : List (List Bool)) (c : Nat × Nat) (v : Bool) : List (List Bool) :=
  b.set c.1 ((b.getD c.1 []).set c.2 v)

/-- The all-`False` `height × width` starting grid. -/
def emptyBoard (h w : Nat) : List (List Bool) :=
  List.replicate h (List.replicate w false)

/-- One iteration of the mine-placement `while` loop body: if the drawn cell is
not yet a mine, add it to the mine set and set the grid entry. -/
def placeStep (acc : Finset (Nat × Nat) × List (List Bool)) (r : Nat × Nat) :
    Finset (Nat × Nat) × List (List Bool) :=
  if boardGet acc.2 r = false then (insert r acc.1, boardSet acc.2 r true) else acc

/-- The `while len(self.mines) != mines` placement loop, driven by an explicit
stream `rands` of `random.randrange` draws; `none` means the stream was
exhausted with the loop still running. -/
def placeMines (target : Nat) : List (Nat × Nat) → Finset (Nat × Nat) × List (List Bool) →
    Option (Finset (Nat × Nat) × List (List Bool))
  | [], acc => if acc.1.card = target then some acc else none
  | r :: rest, acc =>
      if acc.1.card = target then some acc else placeMines target rest (placeStep acc r)

/-- The `Minesweeper` game state after `__init__`. -/
structure Minesweeper where
  height : Nat
  width : Nat
  mines : Finset (Nat × Nat)
  board : List (List Bool)
  mines_found : Finset (Nat × Nat)
deriving DecidableEq

/-- `Minesweeper.__init__(height, width, mines)` with the random draws made
explicit.  `none` means the placement loop did not finish on this stream. -/
def Minesweeper.construct (h w m : Nat) (rands : List (Nat × Nat)) : Option Minesweeper :=
  (placeMines m rands (∅, emptyBoard h w)).map (fun p => ⟨h, w, p.1, p.2, ∅⟩)

/-- `Minesweeper.is_mine(cell)`: reads the boolean grid. -/
def Minesweeper.is_mine (g : Minesweeper) (c : Nat × Nat) : Bool :=
  boardGet g.board c

/-! ## Sentences (`Sentence` class) -/

/-- A logical sentence: `count` of the cells in `cells` are mines. -/
structure Sentence where
  cells : Finset Cell
  count : Int
deriving DecidableEq

/-- `Sentence.known_mines`: the full cell-set when `len(cells) == count`,
otherwise Python's implicit `None`. -/
def Sentence.known_mines (s : Sentence) : Option (Finset Cell) :=
  if (s.cells.card : Int) = s.count then some s.cells else none

/-- `Sentence.known_safes`: the full cell-set when `count == 0`, otherwise
Python's implicit `None`. -/
def Sentence.known_safes (s : Sentence) : Option (Finset Cell) :=
  if s.count = 0 then some s.cells else none

/-- `Sentence.mark_mine(cell)`: remove the cell and decrement the count when
present; no-op otherwise. -/
def Sentence.mark_mine (s : Sentence) (cell : Cell) : Sentence :=
  if cell ∈ s.cells then ⟨s.cells.erase cell, s.count - 1⟩ else s

/-- `Sentence.mark_safe(cell)`: remove the cell (count unchanged) when
present; no-op otherwise. -/
def Sentence.mark_safe (s : Sentence) (cell : Cell) : Sentence :=
  if cell ∈ s.cells then ⟨s.cells.erase cell, s.count⟩ else s

/-! ## The AI (`MinesweeperAI` class) -/

/-- `MinesweeperAI` state. -/
structure MinesweeperAI where
  height : Int
  width : Int
  moves_made : Finset Cell
  mines : Finset Cell
  safes : Finset Cell
  knowledge : List Sentence
deriving DecidableEq

/-- `MinesweeperAI.__init__(height, width)`. -/
def MinesweeperAI.init (h w : Int) : MinesweeperAI :=
  ⟨h, w, ∅, ∅, ∅, []⟩

/-- `MinesweeperAI.mark_mine(cell)`: record the mine and propagate into every
sentence. -/
def MinesweeperAI.mark_mine (st : MinesweeperAI) (cell : Cell) : MinesweeperAI :=
  { st with mines := insert cell st.mines,
            knowledge := st.knowledge.map (fun s => s.mark_mine cell) }

/-- `MinesweeperAI.mark_safe(cell)`: record the safe cell and propagate into
every sentence. -/
def MinesweeperAI.mark_safe (st : MinesweeperAI) (cell : Cell) : MinesweeperAI :=
  { st with safes := insert cell st.safes,
            knowledge := st.knowledge.map (fun s => s.mark_safe cell) }

instance : RightCommutative MinesweeperAI.mark_mine :=
  ⟨fun st a b => by
    have hs : ∀ s : Sentence,
        (s.mark_mine a).mark_mine b = (s.mark_mine b).mark_mine a := by
      intro s
      unfold Sentence.mark_mine
      by_cases hab : a = b
      · subst hab; rfl
      · by_cases ha : a ∈ s.cells <;> by_cases hb : b ∈ s.cells <;>
          simp [ha, hb, Finset.mem_erase, hab, Ne.symm hab, Finset.erase_right_comm]
    obtain ⟨h, w, mm, mi, sa, k⟩ := st
    simp only [MinesweeperAI.mark_mine, List.map_map, MinesweeperAI.mk.injEq, true_and]
    exact ⟨Finset.Insert.comm _ _ _, List.map_congr_left fun s _ => hs s⟩⟩

instance : RightCommutative MinesweeperAI.mark_safe :=
  ⟨fun st a b => by
    have hs : ∀ s : Sentence,
        (s.mark_safe a).mark_safe b = (s.mark_safe b).mark_safe a := by
      intro s
      unfold Sentence.mark_safe
      by_cases hab : a = b
      · subst hab; rfl
      · by_cases ha : a ∈ s.cells <;> by_cases hb : b ∈ s.cells <;>
          simp [ha, hb, Finset.mem_erase, hab, Ne.symm hab, Finset.erase_right_comm]
    obtain ⟨h, w, mm, mi, sa, k⟩ := st
    simp only [MinesweeperAI.mark_safe, List.map_map, MinesweeperAI.mk.injEq, true_and]
    exact ⟨Finset.Insert.comm _ _ _, List.map_congr_left fun s _ => hs s⟩⟩

/-- `for cell in copy_cells: self.mark_mine(cell)` — iteration over the
(deep-copied) cell set; the order is irrelevant since marking commutes. -/
def markMinesAll (st : MinesweeperAI) (cs : Finset Cell) : MinesweeperAI :=
  cs.val.foldl MinesweeperAI.mark_mine st

/-- `for cell in copy_cells: self.mark_safe(cell)` — iteration over the
(deep-copied) cell set; the order is irrelevant since marking commutes. -/
def markSafesAll (st : MinesweeperAI) (cs : Finset Cell) : MinesweeperAI :=
  cs.val.foldl MinesweeperAI.mark_safe st

/-- The nine cells visited by the `range(cell[0]-1, cell[0]+2)` ×
`range(cell[1]-1, cell[1]+2)` neighbor scan, in loop order (the cell itself is
skipped inside the loop body, not here). -/
def neighborCandidates (cell : Cell) : List Cell :=
  [(cell.1 - 1, cell.2 - 1), (cell.1 - 1, cell.2), (cell.1 - 1, cell.2 + 1),
   (cell.1, cell.2 - 1), (cell.1, cell.2), (cell.1, cell.2 + 1),
   (cell.1 + 1, cell.2 - 1), (cell.1 + 1, cell.2), (cell.1 + 1, cell.2 + 1)]

/-- `0 <= i < self.height and 0 <= j < self.width`. -/
def inBounds (h w : Int) (c : Cell) : Prop :=
  0 ≤ c.1 ∧ c.1 < h ∧ 0 ≤ c.2 ∧ c.2 < w

instance (h w : Int) (c : Cell) : Decidable (inBounds h w c) := by
  unfold inBounds; infer_instance

/-- The neighbor loop of `add_knowledge`: collect the unresolved in-bounds
neighbors and subtract known mines from the count. -/
def neighborScan (st : MinesweeperAI) (cell : Cell) (count : Int) : Finset Cell × Int :=
  (neighborCandidates cell).foldl
    (fun acc c =>
      if c = cell then acc
      else if inBounds st.height st.width c then
        let acc1 := if c ∉ st.mines ∧ c ∉ st.safes ∧ c ∉ st.moves_made
          then (insert c acc.1, acc.2) else acc
        if c ∈ st.mines then (acc1.1, acc1.2 - 1) else acc1
      else acc)
    (∅, count)

/-- One iteration of the `for sentence in self.knowledge` resolution loop:
the sentence at index `i` is read, possibly triggering mine marks, and then
re-read (it may have been mutated in place) for the safe check. -/
def resolveStep (st : MinesweeperAI) (i : Nat) : MinesweeperAI :=
  let st1 := match st.knowledge.get? i with
    | none => st
    | some s =>
        if s.known_mines = some s.cells ∧ s.cells ≠ ∅ then markMinesAll st s.cells
        else st
  match st1.knowledge.get? i with
  | none => st1
  | some s =>
      if s.known_safes = some s.cells ∧ s.cells ≠ ∅ then markSafesAll st1 s.cells
      else st1

/-- The full resolution loop over the knowledge list (whose length never
changes during it). -/
def resolvePhase (st : MinesweeperAI) : MinesweeperAI :=
  (List.range st.knowledge.length).foldl resolveStep st

/-- The empty-sentence removal loop: iterate over a value-copy of the
knowledge and `remove` (first occurrence) every empty sentence. -/
def prunePhase (st : MinesweeperAI) : MinesweeperAI :=
  { st with knowledge :=
      st.knowledge.foldl (fun k s => if s.cells = ∅ then k.erase s else k) st.knowledge }

/-- The body of the subset-inference double loop for one pair `(s, t)` that
already passed the `s.cells < t.cells` test: build the difference sentence,
append it if new, and remove the superset sentence if still present. -/
def subStepK (k : List Sentence) (s t : Sentence) : List Sentence :=
  let c : Sentence := ⟨t.cells \ s.cells, t.count - s.count⟩
  let k1 := if c ∈ k then k else k ++ [c]
  if t ∈ k1 then k1.erase t else k1

/-- One pair of the subset-inference double loop, with the `change` flag. -/
def subStepC (acc : List Sentence × Bool) (s t : Sentence) : List Sentence × Bool :=
  if s.cells ⊂ t.cells then (subStepK acc.1 s t, true) else acc

/-- The subset-inference double loop over a value-copy `snap` of the
knowledge, returning the new knowledge and the `change` flag. -/
def subsumptionPhase (st : MinesweeperAI) : MinesweeperAI × Bool :=
  let snap := st.knowledge
  let r := snap.foldl (fun acc s => snap.foldl (fun acc2 t => subStepC acc2 s t) acc)
    (snap, false)
  ({ st with knowledge := r.1 }, r.2)

/-- One full pass of the `while change` deduction loop: resolve, prune,
subset inference. -/
def passFn (st : MinesweeperAI) : MinesweeperAI × Bool :=
  subsumptionPhase (prunePhase (resolvePhase st))

/-- The `while change` loop with fuel; `none` means the fuel ran out with the
loop still running. -/
def deductionLoop : Nat → MinesweeperAI → Option MinesweeperAI
  | 0, _ => none
  | Nat.succ n, st =>
      let r := passFn st
      if r.2 then deductionLoop n r.1 else some r.1

/-- `MinesweeperAI.add_knowledge(cell, count)`: record the move, mark the cell
safe, append the neighbor sentence, then run the deduction loop. -/
def MinesweeperAI.add_knowledge (fuel : Nat) (st : MinesweeperAI) (cell : Cell)
    (count : Int) : Option MinesweeperAI :=
  let st1 := { st with moves_made := insert cell st.moves_made }
  let st2 := st1.mark_safe cell
  let p := neighborScan st2 cell count
  let st3 := { st2 with knowledge := st2.knowledge ++ [⟨p.1, p.2⟩] }
  deductionLoop fuel st3

/-- All board cells in the row-major order of the two `range` loops. -/
def boardCellsRM (h w : Int) : List Cell :=
  (List.range h.toNat).flatMap
    (fun r => (List.range w.toNat).map (fun c => ((r : Int), (c : Int))))

/-- `MinesweeperAI.make_safe_move()`: first safe unplayed cell in row-major
order. -/
def MinesweeperAI.make_safe_move (st : MinesweeperAI) : Option Cell :=
  (boardCellsRM st.height st.width).find?
    (fun p => decide (p ∈ st.safes) && !(decide (p ∈ st.moves_made)))

/-- The `possible_cells` list built by `make_random_move`. -/
def MinesweeperAI.possible_cells (st : MinesweeperAI) : List Cell :=
  (boardCellsRM st.height st.width).filter
    (fun p => !(decide (p ∈ st.moves_made)) && !(decide (p ∈ st.mines)))

/-- `MinesweeperAI.make_random_move()`, with `random.choice` modelled by an
arbitrary choice index. -/
def MinesweeperAI.make_random_move (st : MinesweeperAI) (idx : Nat) : Option Cell :=
  let pc := st.possible_cells
  if h : pc.length = 0 then none
  else some (pc.get ⟨idx % pc.length, Nat.mod_lt idx (Nat.pos_of_ne_zero h)⟩)

/-! ## Basic lemmas about the move-selection queries -/

/-! ## Auxiliary definitions used by the proofs -/

/-- The state reached by `add_knowledge((0,0), 1)` on a fresh 1×2 AI just
before the deduction loop starts: the single neighbor `(0,1)` gives the
sentence `{(0,1)} = 1`. -/
def c1State : MinesweeperAI :=
  ⟨1, 2, {((0:Int),(0:Int))}, ∅, {((0:Int),(0:Int))}, [⟨{((0:Int),(1:Int))}, 1⟩]⟩

/-- Invariant of the mine-placement loop: the grid has the right shape, the
mine set is in bounds, and the grid agrees with the mine set everywhere. -/
def BoardInv (h w : Nat) (acc : Finset (Nat × Nat) × List (List Bool)) : Prop :=
  acc.2.length = h ∧ (∀ i, i < h → (acc.2.getD i []).length = w) ∧
    (∀ c : Nat × Nat, c.1 < h → c.2 < w → (boardGet acc.2 c = true ↔ c ∈ acc.1)) ∧
    (∀ c ∈ acc.1, c.1 < h ∧ c.2 < w)

/-- A sentence is true under a fixed mine assignment `M`: exactly `count` of
its cells are mines. -/
def SentenceTrue (M : Finset Cell) (s : Sentence) : Prop :=
  ((s.cells ∩ M).card : Int) = s.count

/-- Soundness of an AI state w.r.t. a mine assignment `M`. -/
def Sound (M : Finset Cell) (st : MinesweeperAI) : Prop :=
  st.mines ⊆ M ∧ (∀ c ∈ st.safes, c ∉ M) ∧ st.moves_made ⊆ st.safes ∧
    ∀ s ∈ st.knowledge, SentenceTrue M s

/-- The adjacent-mine count the board reports for a revealed cell: the number
of in-bounds neighbors that are mines of `M`. -/
def trueCount (hh ww : Int) (M : Finset Cell) (cell : Cell) : Int :=
  (((neighborCandidates cell).filter
      (fun c => decide (c ≠ cell ∧ inBounds hh ww c ∧ c ∈ M))).length : Int)

/-- AI states reachable from a fresh AI by `add_knowledge` calls that are
consistent with the mine assignment `M` (each revealed cell is not a mine and
the reported count is the true count). -/
inductive ConsistentReach (M : Finset Cell) : MinesweeperAI → Prop where
  | init (h w : Int) : ConsistentReach M (MinesweeperAI.init h w)
  | step (st st2 : MinesweeperAI) (cell : Cell) (fuel : Nat) :
      ConsistentReach M st → cell ∉ M →
      MinesweeperAI.add_knowledge fuel st cell
        (trueCount st.height st.width M cell) = some st2 →
      ConsistentReach M st2

/-- The multiset of sentence sizes of a knowledge list. -/
def sizesM (k : List Sentence) : Multiset Nat :=
  (k.map (fun s => s.cells.card) : List Nat)

/-- The size profile of a multiset of sizes, ordered lexicographically with
the largest size most significant (well-founded). -/
def profOf (m : Multiset Nat) : Lex (OrderDual Nat →₀ Nat) :=
  toLex (Multiset.toFinsupp (m.map (fun n => OrderDual.toDual n)))

/-- The termination measure of an AI state. -/
def measureAI (st : MinesweeperAI) : Lex (OrderDual Nat →₀ Nat) :=
  profOf (sizesM st.knowledge)

def totalCells (k : List Sentence) : Nat :=
  (k.map (fun s => s.cells.card)).sum

theorem mem_boardCellsRM (h w : Int) (p : Cell) :
    p ∈ boardCellsRM h w ↔ inBounds h w p := by
  simp [boardCellsRM, List.mem_flatMap, List.mem_map, inBounds]
  constructor
  · rintro ⟨r, hr, ci, ⟨c, hc, rfl⟩, rfl⟩
    exact ⟨Int.natCast_nonneg r, hr, Int.natCast_nonneg c, hc⟩
  · rintro ⟨h1, h2, h3, h4⟩
    have e1 : ((p.1.toNat : Int)) = p.1 := by omega
    refine ⟨p.1.toNat, by omega, p.2, ⟨p.2.toNat, by omega, by omega⟩, ?_⟩
    exact Prod.ext e1 rfl

/-- Claim C6: `knownMines()` returns the full cell-set iff `|cells| = count`,
and the no-conclusion sentinel (`None`) in every other case. -/
theorem claim_C6 (s : Sentence) :
    (s.known_mines = some s.cells ↔ (s.cells.card : Int) = s.count) ∧
    ((s.cells.card : Int) ≠ s.count → s.known_mines = none) := by
  refine ⟨⟨fun h => ?_, fun hc => by simp [Sentence.known_mines, hc]⟩,
    fun hc => by simp [Sentence.known_mines, hc]⟩
  by_cases hc : (s.cells.card : Int) = s.count
  · exact hc
  · simp [Sentence.known_mines, hc] at h

/-- Witness for C6 at the spec's own examples: `{A,B}=2` yields mines `{A,B}`,
`{A,B}=1` yields no conclusion. -/
theorem claim_C6_witness :
    Sentence.known_mines ⟨{((0:Int),(0:Int)), ((0:Int),(1:Int))}, 2⟩
        = some {((0:Int),(0:Int)), ((0:Int),(1:Int))} ∧
    Sentence.known_mines ⟨{((0:Int),(0:Int)), ((0:Int),(1:Int))}, 1⟩ = none :=
  ⟨(claim_C6 ⟨{((0:Int),(0:Int)), ((0:Int),(1:Int))}, 2⟩).1.mpr (by decide),
   (claim_C6 ⟨{((0:Int),(0:Int)), ((0:Int),(1:Int))}, 1⟩).2 (by decide)⟩

/-- Claim C7: `markMine` on a sentence containing the cell removes it and
decreases `count` by exactly 1; otherwise the sentence is unchanged. -/
theorem claim_C7 (s : Sentence) (c : Cell) :
    (c ∈ s.cells →
      (s.mark_mine c).cells = s.cells.erase c ∧ (s.mark_mine c).count = s.count - 1) ∧
    (c ∉ s.cells → s.mark_mine c = s) := by
  constructor <;> intro h <;> simp [Sentence.mark_mine, h]

/-- Witness for C7 on a concrete sentence containing the cell (the
no-op branch is also exercised). -/
theorem claim_C7_witness :
    ((Sentence.mark_mine ⟨{((0:Int),(0:Int))}, 1⟩ ((0:Int),(0:Int))).cells
        = ({((0:Int),(0:Int))} : Finset Cell).erase ((0:Int),(0:Int)) ∧
     (Sentence.mark_mine ⟨{((0:Int),(0:Int))}, 1⟩ ((0:Int),(0:Int))).count = 1 - 1) ∧
    Sentence.mark_mine ⟨{((0:Int),(0:Int))}, 1⟩ ((0:Int),(1:Int))
        = ⟨{((0:Int),(0:Int))}, 1⟩ :=
  ⟨(claim_C7 ⟨{((0:Int),(0:Int))}, 1⟩ ((0:Int),(0:Int))).1 (by decide),
   (claim_C7 ⟨{((0:Int),(0:Int))}, 1⟩ ((0:Int),(1:Int))).2 (by decide)⟩

theorem mem_possible_cells (st : MinesweeperAI) (p : Cell) :
    p ∈ st.possible_cells ↔
      inBounds st.height st.width p ∧ p ∉ st.moves_made ∧ p ∉ st.mines := by
  simp [MinesweeperAI.possible_cells, List.mem_filter, mem_boardCellsRM, and_assoc]

/-- Claim C8: `makeRandomMove` never returns a made move or a known mine, and
returns the no-move sentinel exactly when every board cell is either a made
move or a known mine. -/
theorem claim_C8 (st : MinesweeperAI) :
    (∀ idx p, st.make_random_move idx = some p →
      inBounds st.height st.width p ∧ p ∉ st.moves_made ∧ p ∉ st.mines) ∧
    (∀ idx, st.make_random_move idx = none ↔
      ∀ p, inBounds st.height st.width p → p ∈ st.moves_made ∨ p ∈ st.mines) := by
  constructor
  · intro idx p hp
    rw [MinesweeperAI.make_random_move] at hp
    split at hp
    · exact absurd hp (by simp)
    · rw [← mem_possible_cells st p]
      exact (Option.some.inj hp) ▸ List.get_mem _ _ _
  · intro idx
    rw [MinesweeperAI.make_random_move]
    split
    case isTrue hlen =>
      refine iff_of_true rfl ?_
      intro p hp
      by_contra hcon
      push_neg at hcon
      have hm : p ∈ st.possible_cells := (mem_possible_cells st p).mpr ⟨hp, hcon.1, hcon.2⟩
      rw [List.length_eq_zero] at hlen
      simp [hlen] at hm
    case isFalse hlen =>
      refine iff_of_false (by simp) ?_
      intro hall
      have hne : st.possible_cells ≠ [] := fun hnil => hlen (by simp [hnil])
      obtain ⟨q, hq⟩ := List.exists_mem_of_ne_nil _ hne
      have hq2 := (mem_possible_cells st q).mp hq
      rcases hall q hq2.1 with h | h
      · exact hq2.2.1 h
      · exact hq2.2.2 h

/-- Witness for C8 on a fresh 1×1 AI: the only cell is eligible, so the move
returned is in bounds and outside both sets. -/
theorem claim_C8_witness :
    inBounds (1:Int) (1:Int) ((0:Int),(0:Int)) ∧
      ((0:Int),(0:Int)) ∉ (MinesweeperAI.init 1 1).moves_made ∧
      ((0:Int),(0:Int)) ∉ (MinesweeperAI.init 1 1).mines :=
  (claim_C8 (MinesweeperAI.init 1 1)).1 0 ((0:Int),(0:Int)) (by decide)

/-- Claim C9: `makeSafeMove` scans the board cells in row-major order and
returns the first cell that is known-safe and not yet played (so in
particular never a made move), and returns the no-move sentinel exactly when
no such cell exists.  It is a pure query: it returns only an `Option Cell`
and leaves the state untouched. -/
theorem claim_C9 (st : MinesweeperAI) :
    (∀ p, st.make_safe_move = some p →
      p ∈ st.safes ∧ p ∉ st.moves_made ∧
      ∃ l1 l2, boardCellsRM st.height st.width = l1 ++ p :: l2 ∧
        ∀ q ∈ l1, ¬(q ∈ st.safes ∧ q ∉ st.moves_made)) ∧
    (st.make_safe_move = none ↔
      ∀ q, inBounds st.height st.width q → ¬(q ∈ st.safes ∧ q ∉ st.moves_made)) := by
  constructor
  · intro p hp
    rw [MinesweeperAI.make_safe_move, List.find?_eq_some] at hp
    obtain ⟨hpred, l1, l2, hsplit, hfirst⟩ := hp
    have hp2 : p ∈ st.safes ∧ p ∉ st.moves_made := by simpa using hpred
    refine ⟨hp2.1, hp2.2, l1, l2, hsplit, fun q hq => ?_⟩
    have h3 := hfirst q hq
    simp at h3
    tauto
  · rw [MinesweeperAI.make_safe_move, List.find?_eq_none]
    constructor
    · intro hall q hq hcon
      have h2 := hall q ((mem_boardCellsRM _ _ _).mpr hq)
      simp at h2
      tauto
    · intro hall q hq
      have h2 := hall q ((mem_boardCellsRM _ _ _).mp hq)
      simp
      tauto

/-- Witness for C9: a 1×2 AI that knows `(0,1)` is safe returns it (and it is
not a made move). -/
theorem claim_C9_witness :
    ((0:Int),(1:Int)) ∈ ({((0:Int),(1:Int))} : Finset Cell) ∧
      ((0:Int),(1:Int)) ∉ (∅ : Finset Cell) ∧
      ∃ l1 l2, boardCellsRM (1:Int) (2:Int) = l1 ++ ((0:Int),(1:Int)) :: l2 ∧
        ∀ q ∈ l1, ¬(q ∈ ({((0:Int),(1:Int))} : Finset Cell) ∧ q ∉ (∅ : Finset Cell)) :=
  (claim_C9 ⟨1, 2, ∅, ∅, {((0:Int),(1:Int))}, []⟩).1 ((0:Int),(1:Int)) (by decide)

/-! ## Claim C1: what sets the `change` flag -/

theorem subsumption_inner_flag (snap : List Sentence) (s : Sentence)
    (acc : List Sentence × Bool) :
    (snap.foldl (fun acc2 t => subStepC acc2 s t) acc).2 =
      (acc.2 || snap.any (fun t => decide (s.cells ⊂ t.cells))) := by
  induction snap generalizing acc with
  | nil => simp
  | cons t rest ih =>
      simp only [List.foldl_cons, List.any_cons]
      rw [ih]
      by_cases hf : s.cells ⊂ t.cells <;> simp [subStepC, hf]

theorem subsumption_outer_flag (snap l1 : List Sentence) (acc : List Sentence × Bool) :
    (l1.foldl (fun acc s => snap.foldl (fun acc2 t => subStepC acc2 s t) acc) acc).2 =
      (acc.2 || l1.any (fun s => snap.any (fun t => decide (s.cells ⊂ t.cells)))) := by
  induction l1 generalizing acc with
  | nil => simp
  | cons s rest ih =>
      simp only [List.foldl_cons, List.any_cons]
      rw [ih, subsumption_inner_flag]
      by_cases hf : (snap.any (fun t => decide (s.cells ⊂ t.cells))) = true <;>
        simp [hf, Bool.or_assoc]

/-- Amended claim C1: the `change` flag of a pass is set **iff** the post-prune
knowledge contains an ordered pair of sentences with one cell-set a strict
subset of the other — i.e. only the subset-inference step sets the flag; marks
and prunes by themselves never do, so a mark does not force a further pass. -/
theorem claim_C1_amended (st : MinesweeperAI) :
    (passFn st).2 = true ↔
      ∃ s ∈ (prunePhase (resolvePhase st)).knowledge,
        ∃ t ∈ (prunePhase (resolvePhase st)).knowledge, s.cells ⊂ t.cells := by
  show (subsumptionPhase (prunePhase (resolvePhase st))).2 = true ↔ _
  unfold subsumptionPhase
  rw [subsumption_outer_flag]
  simp [List.any_eq_true]

/-- Counterexample to claim C1 as stated: on this concrete input, the very
first pass marks `(0,1)` as a mine (and prunes the emptied sentence), yet the
`change` flag stays `false`, so the loop stops without the further pass the
claim requires; the whole `add_knowledge` call succeeds with fuel 1, i.e.
after a single pass in which a mark occurred. -/
theorem claim_C1_counterexample :
    MinesweeperAI.add_knowledge 1 (MinesweeperAI.init 1 2) ((0:Int),(0:Int)) 1
        = some ⟨1, 2, {((0:Int),(0:Int))}, {((0:Int),(1:Int))}, {((0:Int),(0:Int))}, []⟩ ∧
      (passFn c1State).2 = false ∧
      (passFn c1State).1.mines ≠ c1State.mines := by
  refine ⟨by decide, by decide, by decide⟩

/-! ## Claims C2 / C10: board construction -/

theorem getD_set_self {α : Type} (l : List α) (i : Nat) (x d : α) (hi : i < l.length) :
    (l.set i x).getD i d = x := by
  simp [List.getD_eq_getElem?_getD, List.getElem?_set_self hi]

theorem getD_set_ne {α : Type} (l : List α) {i j : Nat} (x d : α) (hne : i ≠ j) :
    (l.set i x).getD j d = l.getD j d := by
  simp [List.getD_eq_getElem?_getD, List.getElem?_set_ne hne]

theorem boardGet_boardSet_self (b : List (List Bool)) (i j : Nat) (v : Bool)
    (hi : i < b.length) (hj : j < (b.getD i []).length) :
    boardGet (boardSet b (i, j) v) (i, j) = v := by
  rw [List.getD_eq_getElem?_getD] at hj
  simp [boardGet, boardSet, List.getD_eq_getElem?_getD, List.getElem?_set_self hi,
    List.getElem?_set_self hj]

theorem boardGet_boardSet_ne (b : List (List Bool)) (r c : Nat × Nat) (v : Bool)
    (hne : r ≠ c) : boardGet (boardSet b r v) c = boardGet b c := by
  by_cases h1 : r.1 = c.1
  · have h2 : r.2 ≠ c.2 := fun h2 => hne (Prod.ext h1 h2)
    by_cases hi : r.1 < b.length
    · simp only [boardGet, boardSet, List.getD_eq_getElem?_getD, ← h1,
        List.getElem?_set_self hi, Option.getD_some]
      simp [List.getElem?_set_ne h2]
    · simp [boardGet, boardSet, List.set_eq_of_length_le (Nat.le_of_not_lt hi)]
  · simp [boardGet, boardSet, List.getD_eq_getElem?_getD, List.getElem?_set_ne h1]

theorem boardInv_empty (h w : Nat) : BoardInv h w (∅, emptyBoard h w) := by
  refine ⟨by simp [emptyBoard], fun i hi => ?_, fun c hc1 hc2 => ?_, by simp⟩
  · simp [emptyBoard, List.getD_eq_getElem?_getD, List.getElem?_replicate_of_lt hi]
  · simp [boardGet, emptyBoard, List.getD_eq_getElem?_getD,
      List.getElem?_replicate_of_lt hc1, List.getElem?_replicate_of_lt hc2]

theorem boardInv_placeStep (h w : Nat) (acc : Finset (Nat × Nat) × List (List Bool))
    (r : Nat × Nat) (hr : r.1 < h ∧ r.2 < w) (hinv : BoardInv h w acc) :
    BoardInv h w (placeStep acc r) := by
  obtain ⟨hlen, hrow, hagree, hbound⟩ := hinv
  rw [placeStep]
  split
  case isFalse => exact ⟨hlen, hrow, hagree, hbound⟩
  case isTrue hget =>
    have hi : r.1 < acc.2.length := hlen ▸ hr.1
    have hj : r.2 < (acc.2.getD r.1 []).length := by rw [hrow r.1 hr.1]; exact hr.2
    refine ⟨by simp [boardSet, hlen], fun i hiw => ?_, fun c hc1 hc2 => ?_, ?_⟩
    · by_cases hieq : i = r.1
      · subst hieq
        rw [show boardSet acc.2 r true = acc.2.set r.1 ((acc.2.getD r.1 []).set r.2 true)
            from rfl]
        rw [getD_set_self _ _ _ _ hi, List.length_set]
        exact hrow _ hiw
      · rw [show boardSet acc.2 r true = acc.2.set r.1 ((acc.2.getD r.1 []).set r.2 true)
            from rfl]
        rw [getD_set_ne _ _ _ (fun hcon => hieq hcon.symm)]
        exact hrow i hiw
    · by_cases hceq : c = r
      · subst hceq
        have hself : boardGet (boardSet acc.2 (c.1, c.2) true) (c.1, c.2) = true :=
          boardGet_boardSet_self acc.2 c.1 c.2 true hi hj
        simp only [show ((c.1, c.2) : Nat × Nat) = c from rfl] at hself
        simp [hself]
      · rw [boardGet_boardSet_ne acc.2 r c true (fun hcon => hceq hcon.symm)]
        rw [hagree c hc1 hc2]
        simp [Finset.mem_insert, hceq]
    · intro c hc
      rcases Finset.mem_insert.mp hc with hceq | hmem
      · subst hceq; exact hr
      · exact hbound c hmem

theorem placeMines_some_inv (h w t : Nat) (rands : List (Nat × Nat)) :
    ∀ acc res, (∀ r ∈ rands, r.1 < h ∧ r.2 < w) → BoardInv h w acc →
      placeMines t rands acc = some res → BoardInv h w res ∧ res.1.card = t := by
  induction rands with
  | nil =>
      intro acc res _ hinv hp
      rw [placeMines] at hp
      split at hp
      case isTrue hcard => cases hp; exact ⟨hinv, hcard⟩
      case isFalse => cases hp
  | cons r rest ih =>
      intro acc res hr hinv hp
      rw [placeMines] at hp
      split at hp
      case isTrue hcard => cases hp; exact ⟨hinv, hcard⟩
      case isFalse =>
        exact ih _ _ (fun x hx => hr x (List.mem_cons_of_mem _ hx))
          (boardInv_placeStep h w acc r (hr r (List.mem_cons_self _ _)) hinv) hp

theorem card_ne_of_bounds (h w t : Nat) (hgt : h * w < t) (s : Finset (Nat × Nat))
    (hs : ∀ c ∈ s, c.1 < h ∧ c.2 < w) : s.card ≠ t := by
  have hsub : s ⊆ Finset.range h ×ˢ Finset.range w := by
    intro c hc
    simp only [Finset.mem_product, Finset.mem_range]
    exact hs c hc
  have hle := Finset.card_le_card hsub
  rw [Finset.card_product] at hle
  simp only [Finset.card_range] at hle
  omega

theorem placeStep_bounds (h w : Nat) (acc : Finset (Nat × Nat) × List (List Bool))
    (r : Nat × Nat) (hr : r.1 < h ∧ r.2 < w) (hb : ∀ c ∈ acc.1, c.1 < h ∧ c.2 < w) :
    ∀ c ∈ (placeStep acc r).1, c.1 < h ∧ c.2 < w := by
  rw [placeStep]
  split
  · intro c hc
    rcases Finset.mem_insert.mp hc with hceq | hmem
    · subst hceq; exact hr
    · exact hb c hmem
  · exact hb

theorem placeMines_none_of_gt (h w t : Nat) (hgt : h * w < t) (rands : List (Nat × Nat)) :
    ∀ acc, (∀ r ∈ rands, r.1 < h ∧ r.2 < w) → (∀ c ∈ acc.1, c.1 < h ∧ c.2 < w) →
      placeMines t rands acc = none := by
  induction rands with
  | nil =>
      intro acc _ hb
      rw [placeMines, if_neg (card_ne_of_bounds h w t hgt acc.1 hb)]
  | cons r rest ih =>
      intro acc hr hb
      rw [placeMines, if_neg (card_ne_of_bounds h w t hgt acc.1 hb)]
      exact ih _ (fun x hx => hr x (List.mem_cons_of_mem _ hx))
        (placeStep_bounds h w acc r (hr r (List.mem_cons_self _ _)) hb)

/-- Claim C10: whenever construction completes, the mine set has exactly `m`
distinct in-bounds cells, and `is_mine` agrees with mine-set membership on
every in-bounds cell. -/
theorem claim_C10 (h w m : Nat) (hh : 1 ≤ h) (hw : 1 ≤ w) (hm : m ≤ h * w)
    (rands : List (Nat × Nat)) (hr : ∀ r ∈ rands, r.1 < h ∧ r.2 < w) (g : Minesweeper)
    (hsucc : Minesweeper.construct h w m rands = some g) :
    g.mines.card = m ∧ (∀ c ∈ g.mines, c.1 < h ∧ c.2 < w) ∧
      (∀ c : Nat × Nat, c.1 < h → c.2 < w → (g.is_mine c = true ↔ c ∈ g.mines)) := by
  rw [Minesweeper.construct] at hsucc
  cases hpm : placeMines m rands (∅, emptyBoard h w) with
  | none => rw [hpm] at hsucc; cases hsucc
  | some p =>
      rw [hpm] at hsucc
      simp only [Option.map_some'] at hsucc
      obtain ⟨hinv, hcard⟩ :=
        placeMines_some_inv h w m rands _ p hr (boardInv_empty h w) hpm
      obtain ⟨hlen, hrow, hagree, hbound⟩ := hinv
      cases hsucc
      exact ⟨hcard, hbound, fun c hc1 hc2 => hagree c hc1 hc2⟩

/-- Witness for C10 on a concrete completing run (1×1 board, one mine). -/
theorem claim_C10_witness :
    (⟨1, 1, {((0:Nat),(0:Nat))}, [[true]], ∅⟩ : Minesweeper).mines.card = 1 ∧
      (∀ c ∈ (⟨1, 1, {((0:Nat),(0:Nat))}, [[true]], ∅⟩ : Minesweeper).mines,
        c.1 < 1 ∧ c.2 < 1) ∧
      (∀ c : Nat × Nat, c.1 < 1 → c.2 < 1 →
        ((⟨1, 1, {((0:Nat),(0:Nat))}, [[true]], ∅⟩ : Minesweeper).is_mine c = true ↔
          c ∈ (⟨1, 1, {((0:Nat),(0:Nat))}, [[true]], ∅⟩ : Minesweeper).mines)) :=
  claim_C10 1 1 1 (by decide) (by decide) (by decide) [((0:Nat),(0:Nat))]
    (by decide) _ (by decide)

/-- Amended claim C2: construction places exactly `mineCount` distinct
in-bounds mines whenever it completes; when `mineCount > height*width` it
never completes (the placement loop runs forever) — the code raises no
`ConfigurationError` and has no user-facing failure value at all. -/
theorem claim_C2_amended :
    (∀ h w m rands (g : Minesweeper), (∀ r ∈ rands, r.1 < h ∧ r.2 < w) →
        Minesweeper.construct h w m rands = some g →
        g.mines.card = m ∧ ∀ c ∈ g.mines, c.1 < h ∧ c.2 < w) ∧
    (∀ h w m rands, h * w < m → (∀ r ∈ rands, r.1 < h ∧ r.2 < w) →
        Minesweeper.construct h w m rands = none) := by
  constructor
  · intro h w m rands g hr hsucc
    rw [Minesweeper.construct] at hsucc
    cases hpm : placeMines m rands (∅, emptyBoard h w) with
    | none => rw [hpm] at hsucc; cases hsucc
    | some p =>
        rw [hpm] at hsucc
        simp only [Option.map_some'] at hsucc
        obtain ⟨⟨_, _, _, hbound⟩, hcard⟩ :=
          placeMines_some_inv h w m rands _ p hr (boardInv_empty h w) hpm
        cases hsucc
        exact ⟨hcard, hbound⟩
  · intro h w m rands hgt hr
    rw [Minesweeper.construct,
      placeMines_none_of_gt h w m hgt rands _ hr (by simp)]
    rfl

/-- Counterexample to claim C2 as stated: asking for 2 mines on a 1×1 board
does not fail with any `ConfigurationError` — no such error exists in the
code; the placement loop simply never finishes (here shown still running
after nine draws; `claim_C2_amended` shows it never finishes on any stream). -/
theorem claim_C2_counterexample :
    Minesweeper.construct 1 1 2 (List.replicate 9 ((0:Nat),(0:Nat))) = none := by
  decide

/-- Witness for the amended C2 (both conjuncts at concrete inputs). -/
theorem claim_C2_witness :
    ((⟨1, 1, {((0:Nat),(0:Nat))}, [[true]], ∅⟩ : Minesweeper).mines.card = 1 ∧
      ∀ c ∈ (⟨1, 1, {((0:Nat),(0:Nat))}, [[true]], ∅⟩ : Minesweeper).mines,
        c.1 < 1 ∧ c.2 < 1) ∧
    Minesweeper.construct 1 1 2 [((0:Nat),(0:Nat))] = none :=
  ⟨claim_C2_amended.1 1 1 1 [((0:Nat),(0:Nat))] _ (by decide) (by decide),
   claim_C2_amended.2 1 1 2 [((0:Nat),(0:Nat))] (by decide) (by decide)⟩

/-! ## Claim C4: subset inference -/

/-- For any pair that fires the subset-inference test (with a nonempty
subset side, as is always the case for post-prune knowledge), the difference
sentence is in the knowledge list right after that pair is processed. -/
theorem diff_mem_subStepK (k : List Sentence) (s t : Sentence)
    (hsub : s.cells ⊂ t.cells) (hne : s.cells ≠ ∅) :
    (⟨t.cells \ s.cells, t.count - s.count⟩ : Sentence) ∈ subStepK k s t := by
  have hct : (⟨t.cells \ s.cells, t.count - s.count⟩ : Sentence) ≠ t := by
    intro hcon
    have hcells : t.cells \ s.cells = t.cells := congrArg Sentence.cells hcon
    obtain ⟨x, hx⟩ := Finset.nonempty_iff_ne_empty.mpr hne
    have hxt : x ∈ t.cells := (Finset.ssubset_def.mp hsub).1 hx
    have hmem : x ∈ t.cells \ s.cells := hcells.symm ▸ hxt
    exact (Finset.mem_sdiff.mp hmem).2 hx
  rw [subStepK]
  by_cases hmem : (⟨t.cells \ s.cells, t.count - s.count⟩ : Sentence) ∈ k
  · simp only [if_pos hmem]
    split
    · exact (List.mem_erase_of_ne hct).mpr hmem
    · exact hmem
  · simp only [if_neg hmem]
    have hmem2 : (⟨t.cells \ s.cells, t.count - s.count⟩ : Sentence) ∈
        k ++ [⟨t.cells \ s.cells, t.count - s.count⟩] := by simp
    split
    · exact (List.mem_erase_of_ne hct).mpr hmem2
    · exact hmem2

theorem c4_resolve (A B C : Cell) (hAB : A ≠ B) (hAC : A ≠ C) (hBC : B ≠ C) (h w : Int) :
    resolvePhase ⟨h, w, ∅, ∅, ∅, [⟨{A,B,C}, 1⟩, ⟨{A,B}, 1⟩]⟩ =
      ⟨h, w, ∅, ∅, ∅, [⟨{A,B,C}, 1⟩, ⟨{A,B}, 1⟩]⟩ := by
  have cABC : ({A,B,C} : Finset Cell).card = 3 := by
    rw [Finset.card_insert_of_not_mem (by simp [hAB, hAC]),
      Finset.card_insert_of_not_mem (by simp [hBC]), Finset.card_singleton]
  have cAB : ({A,B} : Finset Cell).card = 2 := by
    rw [Finset.card_insert_of_not_mem (by simp [hAB]), Finset.card_singleton]
  have hkmT : Sentence.known_mines ⟨{A,B,C}, 1⟩ = none := by
    rw [Sentence.known_mines]
    simp [cABC]
  have hkmS : Sentence.known_mines ⟨{A,B}, 1⟩ = none := by
    rw [Sentence.known_mines]
    simp [cAB]
  have hksT : Sentence.known_safes ⟨{A,B,C}, 1⟩ = none := by
    rw [Sentence.known_safes]
    simp
  have hksS : Sentence.known_safes ⟨{A,B}, 1⟩ = none := by
    rw [Sentence.known_safes]
    simp
  have hstep0 : resolveStep ⟨h, w, ∅, ∅, ∅, [⟨{A,B,C}, 1⟩, ⟨{A,B}, 1⟩]⟩ 0 = ⟨h, w, ∅, ∅, ∅, [⟨{A,B,C}, 1⟩, ⟨{A,B}, 1⟩]⟩ := by
    rw [resolveStep]
    simp [hkmT, hksT]
  have hstep1 : resolveStep ⟨h, w, ∅, ∅, ∅, [⟨{A,B,C}, 1⟩, ⟨{A,B}, 1⟩]⟩ 1 = ⟨h, w, ∅, ∅, ∅, [⟨{A,B,C}, 1⟩, ⟨{A,B}, 1⟩]⟩ := by
    rw [resolveStep]
    simp [hkmS, hksS]
  rw [resolvePhase]
  simp only [List.length_cons, List.length_nil, List.range_succ, List.range_zero,
    List.nil_append, List.cons_append, List.foldl_cons, List.foldl_nil, hstep0, hstep1]

theorem c4_prune (A B C : Cell) (h w : Int) :
    prunePhase ⟨h, w, ∅, ∅, ∅, [⟨{A,B,C}, 1⟩, ⟨{A,B}, 1⟩]⟩ = ⟨h, w, ∅, ∅, ∅, [⟨{A,B,C}, 1⟩, ⟨{A,B}, 1⟩]⟩ := by
  rw [prunePhase]
  simp

theorem c4_subsumption (A B C : Cell) (hAB : A ≠ B) (hAC : A ≠ C) (hBC : B ≠ C) (h w : Int) :
    subsumptionPhase ⟨h, w, ∅, ∅, ∅, [⟨{A,B,C}, 1⟩, ⟨{A,B}, 1⟩]⟩ =
      (⟨h, w, ∅, ∅, ∅, [⟨{A,B}, 1⟩, ⟨{C}, 0⟩]⟩, true) := by
  have h2 : ¬(({A,B,C} : Finset Cell) ⊂ {A,B}) := by
    rw [Finset.ssubset_def]
    rintro ⟨hcon, -⟩
    have hcc := hcon (by simp : C ∈ ({A,B,C} : Finset Cell))
    simp only [Finset.mem_insert, Finset.mem_singleton] at hcc
    rcases hcc with hh | hh
    · exact hAC hh.symm
    · exact hBC hh.symm
  have h4 : ({A,B} : Finset Cell) ⊂ {A,B,C} := by
    rw [Finset.ssubset_def]
    constructor
    · intro x hx
      simp only [Finset.mem_insert, Finset.mem_singleton] at hx ⊢
      tauto
    · intro hcon
      have hcc := hcon (by simp : C ∈ ({A,B,C} : Finset Cell))
      simp only [Finset.mem_insert, Finset.mem_singleton] at hcc
      rcases hcc with hh | hh
      · exact hAC hh.symm
      · exact hBC hh.symm
  have hdiff : ({A,B,C} : Finset Cell) \ {A,B} = {C} := by
    ext x
    simp only [Finset.mem_sdiff, Finset.mem_insert, Finset.mem_singleton]
    constructor
    · rintro ⟨(rfl | rfl | rfl), hq⟩
      · exact absurd (Or.inl rfl) hq
      · exact absurd (Or.inr rfl) hq
      · rfl
    · rintro rfl
      refine ⟨Or.inr (Or.inr rfl), ?_⟩
      rintro (hca | hcb)
      · exact hAC hca.symm
      · exact hBC hcb.symm
  have hirr : ∀ s : Finset Cell, ¬(s ⊂ s) :=
    fun s hcon => (Finset.ssubset_def.mp hcon).2 (Finset.Subset.refl s)
  rw [subsumptionPhase]
  simp only [List.foldl_cons, List.foldl_nil]
  simp [subStepC, subStepK, h2, h4, hdiff, hirr, Sentence.mk.injEq]

theorem c4_resolve2 (A B C : Cell) (hAB : A ≠ B) (hAC : A ≠ C) (hBC : B ≠ C) (h w : Int) :
    resolvePhase ⟨h, w, ∅, ∅, ∅, [⟨{A,B}, 1⟩, ⟨{C}, 0⟩]⟩ =
      ⟨h, w, ∅, ∅, {C}, [⟨{A,B}, 1⟩, ⟨∅, 0⟩]⟩ := by
  have cAB : ({A,B} : Finset Cell).card = 2 := by
    rw [Finset.card_insert_of_not_mem (by simp [hAB]), Finset.card_singleton]
  have hkmS : Sentence.known_mines ⟨{A,B}, 1⟩ = none := by
    rw [Sentence.known_mines]
    simp [cAB]
  have hksS : Sentence.known_safes ⟨{A,B}, 1⟩ = none := by
    rw [Sentence.known_safes]
    simp
  have hkmC : Sentence.known_mines ⟨{C}, 0⟩ = none := by
    rw [Sentence.known_mines]
    simp
  have hCmem : C ∉ ({A,B} : Finset Cell) := by
    simp only [Finset.mem_insert, Finset.mem_singleton]
    rintro (hca | hcb)
    · exact hAC hca.symm
    · exact hBC hcb.symm
  have hstep0 : resolveStep ⟨h, w, ∅, ∅, ∅, [⟨{A,B}, 1⟩, ⟨{C}, 0⟩]⟩ 0 =
      ⟨h, w, ∅, ∅, ∅, [⟨{A,B}, 1⟩, ⟨{C}, 0⟩]⟩ := by
    rw [resolveStep]
    simp [hkmS, hksS]
  have hstep1 : resolveStep ⟨h, w, ∅, ∅, ∅, [⟨{A,B}, 1⟩, ⟨{C}, 0⟩]⟩ 1 =
      ⟨h, w, ∅, ∅, {C}, [⟨{A,B}, 1⟩, ⟨∅, 0⟩]⟩ := by
    rw [resolveStep]
    simp only [List.get?_cons_succ, List.get?_cons_zero, hkmC, reduceCtorEq, ne_eq,
      false_and, if_false]
    simp only [Sentence.known_safes, markSafesAll, Finset.singleton_val]
    rw [if_pos (by simp)]
    rw [show ({C} : Multiset Cell) = C ::ₘ 0 from rfl, Multiset.foldl_cons,
      Multiset.foldl_zero]
    simp [MinesweeperAI.mark_safe, Sentence.mark_safe, hCmem]
  rw [resolvePhase]
  simp only [List.length_cons, List.length_nil, List.range_succ, List.range_zero,
    List.nil_append, List.cons_append, List.foldl_cons, List.foldl_nil, hstep0, hstep1]

theorem c4_prune2 (A B C : Cell) (h w : Int) :
    prunePhase ⟨h, w, ∅, ∅, {C}, [⟨{A,B}, 1⟩, ⟨∅, 0⟩]⟩ =
      ⟨h, w, ∅, ∅, {C}, [⟨{A,B}, 1⟩]⟩ := by
  have hSne : (⟨∅, 0⟩ : Sentence) ≠ ⟨{A,B}, 1⟩ := by simp
  rw [prunePhase]
  simp [List.erase_cons_tail, hSne, Sentence.mk.injEq]

theorem c4_subsumption2 (A B C : Cell) (h w : Int) :
    subsumptionPhase ⟨h, w, ∅, ∅, {C}, [⟨{A,B}, 1⟩]⟩ =
      (⟨h, w, ∅, ∅, {C}, [⟨{A,B}, 1⟩]⟩, false) := by
  have hirr : ∀ s : Finset Cell, ¬(s ⊂ s) :=
    fun s hcon => (Finset.ssubset_def.mp hcon).2 (Finset.Subset.refl s)
  rw [subsumptionPhase]
  simp [subStepC, hirr]

/-- Claim C4: with `{A,B,C}=1` and `{A,B}=1` in the knowledge base (any three
distinct cells), the first pass derives `{C}=0` and the fixed point ends with
`C` marked safe; in general every fired ordered subset pair derives the
difference sentence. -/
theorem claim_C4 (A B C : Cell) (hAB : A ≠ B) (hAC : A ≠ C) (hBC : B ≠ C) (h w : Int) :
    (∀ (k : List Sentence) (s t : Sentence), s.cells ⊂ t.cells → s.cells ≠ ∅ →
        (⟨t.cells \ s.cells, t.count - s.count⟩ : Sentence) ∈ subStepK k s t) ∧
    (⟨{C}, 0⟩ : Sentence) ∈
      (passFn ⟨h, w, ∅, ∅, ∅, [⟨{A,B,C}, 1⟩, ⟨{A,B}, 1⟩]⟩).1.knowledge ∧
    ∃ st2, deductionLoop 2 ⟨h, w, ∅, ∅, ∅, [⟨{A,B,C}, 1⟩, ⟨{A,B}, 1⟩]⟩ = some st2 ∧
      C ∈ st2.safes := by
  have hpass1 : passFn ⟨h, w, ∅, ∅, ∅, [⟨{A,B,C}, 1⟩, ⟨{A,B}, 1⟩]⟩ =
      (⟨h, w, ∅, ∅, ∅, [⟨{A,B}, 1⟩, ⟨{C}, 0⟩]⟩, true) := by
    rw [passFn, c4_resolve A B C hAB hAC hBC h w, c4_prune A B C h w,
      c4_subsumption A B C hAB hAC hBC h w]
  have hpass2 : passFn ⟨h, w, ∅, ∅, ∅, [⟨{A,B}, 1⟩, ⟨{C}, 0⟩]⟩ =
      (⟨h, w, ∅, ∅, {C}, [⟨{A,B}, 1⟩]⟩, false) := by
    rw [passFn, c4_resolve2 A B C hAB hAC hBC h w, c4_prune2 A B C h w,
      c4_subsumption2 A B C h w]
  refine ⟨fun k s t hsub hne => diff_mem_subStepK k s t hsub hne, ?_, ?_⟩
  · rw [hpass1]
    simp
  · refine ⟨⟨h, w, ∅, ∅, {C}, [⟨{A,B}, 1⟩]⟩, ?_, by simp⟩
    have e1 : deductionLoop 2 ⟨h, w, ∅, ∅, ∅, [⟨{A,B,C}, 1⟩, ⟨{A,B}, 1⟩]⟩ =
        (if (passFn ⟨h, w, ∅, ∅, ∅, [⟨{A,B,C}, 1⟩, ⟨{A,B}, 1⟩]⟩).2 = true
         then deductionLoop 1 (passFn ⟨h, w, ∅, ∅, ∅, [⟨{A,B,C}, 1⟩, ⟨{A,B}, 1⟩]⟩).1
         else some (passFn ⟨h, w, ∅, ∅, ∅, [⟨{A,B,C}, 1⟩, ⟨{A,B}, 1⟩]⟩).1) := rfl
    have e2 : deductionLoop 1 ⟨h, w, ∅, ∅, ∅, [⟨{A,B}, 1⟩, ⟨{C}, 0⟩]⟩ =
        (if (passFn ⟨h, w, ∅, ∅, ∅, [⟨{A,B}, 1⟩, ⟨{C}, 0⟩]⟩).2 = true
         then deductionLoop 0 (passFn ⟨h, w, ∅, ∅, ∅, [⟨{A,B}, 1⟩, ⟨{C}, 0⟩]⟩).1
         else some (passFn ⟨h, w, ∅, ∅, ∅, [⟨{A,B}, 1⟩, ⟨{C}, 0⟩]⟩).1) := rfl
    rw [e1, hpass1]
    simp only [if_true]
    rw [e2, hpass2]
    simp

/-- Witness for C4 at the concrete cells `(0,0), (0,1), (0,2)`. -/
theorem claim_C4_witness :
    (⟨{((0:Int),(2:Int))}, 0⟩ : Sentence) ∈
      (passFn ⟨3, 3, ∅, ∅, ∅,
        [⟨{((0:Int),(0:Int)), ((0:Int),(1:Int)), ((0:Int),(2:Int))}, 1⟩,
         ⟨{((0:Int),(0:Int)), ((0:Int),(1:Int))}, 1⟩]⟩).1.knowledge ∧
    ∃ st2, deductionLoop 2 ⟨3, 3, ∅, ∅, ∅,
        [⟨{((0:Int),(0:Int)), ((0:Int),(1:Int)), ((0:Int),(2:Int))}, 1⟩,
         ⟨{((0:Int),(0:Int)), ((0:Int),(1:Int))}, 1⟩]⟩ = some st2 ∧
      ((0:Int),(2:Int)) ∈ st2.safes :=
  ⟨(claim_C4 ((0:Int),(0:Int)) ((0:Int),(1:Int)) ((0:Int),(2:Int))
      (by decide) (by decide) (by decide) 3 3).2.1,
   (claim_C4 ((0:Int),(0:Int)) ((0:Int),(1:Int)) ((0:Int),(2:Int))
      (by decide) (by decide) (by decide) 3 3).2.2⟩

/-! ## Claim C3: disjointness of known mines and known safes -/

theorem sound_mark_mine (M : Finset Cell) (st : MinesweeperAI) (c : Cell)
    (hc : c ∈ M) (hs : Sound M st) : Sound M (st.mark_mine c) := by
  obtain ⟨h1, h2, h3, h4⟩ := hs
  refine ⟨?_, h2, h3, ?_⟩
  · exact Finset.insert_subset hc h1
  · intro s' hs'
    rw [MinesweeperAI.mark_mine] at hs'
    simp only [List.mem_map] at hs'
    obtain ⟨s, hsmem, rfl⟩ := hs'
    have htrue := h4 s hsmem
    rw [Sentence.mark_mine]
    split
    case isTrue hmem =>
      have hmm : c ∈ s.cells ∩ M := Finset.mem_inter.mpr ⟨hmem, hc⟩
      rw [SentenceTrue] at htrue ⊢
      simp only
      rw [Finset.erase_inter, Finset.card_erase_of_mem hmm]
      rw [Nat.cast_sub (Nat.one_le_iff_ne_zero.mpr
        (Finset.card_ne_zero_of_mem hmm))]
      rw [htrue]
      simp
    case isFalse => exact htrue
  

theorem sound_mark_safe (M : Finset Cell) (st : MinesweeperAI) (c : Cell)
    (hc : c ∉ M) (hs : Sound M st) : Sound M (st.mark_safe c) := by
  obtain ⟨h1, h2, h3, h4⟩ := hs
  refine ⟨h1, ?_, ?_, ?_⟩
  · intro x hx
    rcases Finset.mem_insert.mp hx with rfl | hold
    · exact hc
    · exact h2 x hold
  · exact h3.trans (Finset.subset_insert c st.safes)
  · intro s' hs'
    rw [MinesweeperAI.mark_safe] at hs'
    simp only [List.mem_map] at hs'
    obtain ⟨s, hsmem, rfl⟩ := hs'
    have htrue := h4 s hsmem
    rw [Sentence.mark_safe]
    split
    case isTrue hmem =>
      rw [SentenceTrue] at htrue ⊢
      simp only
      rw [Finset.erase_inter, Finset.erase_eq_of_not_mem
        (fun hcon => hc (Finset.mem_inter.mp hcon).2)]
      exact htrue
    case isFalse => exact htrue

theorem sound_foldl_mark_mine (M : Finset Cell) :
    ∀ (ms : Multiset Cell), (∀ c ∈ ms, c ∈ M) → ∀ st, Sound M st →
      Sound M (Multiset.foldl MinesweeperAI.mark_mine st ms) := by
  intro ms
  induction ms using Multiset.induction_on with
  | empty => intro _ st hst; simpa using hst
  | cons a s ih =>
      intro hval st hst
      rw [Multiset.foldl_cons]
      exact ih (fun c hc => hval c (Multiset.mem_cons_of_mem hc)) _
        (sound_mark_mine M st a (hval a (Multiset.mem_cons_self a s)) hst)

theorem sound_foldl_mark_safe (M : Finset Cell) :
    ∀ (ms : Multiset Cell), (∀ c ∈ ms, c ∉ M) → ∀ st, Sound M st →
      Sound M (Multiset.foldl MinesweeperAI.mark_safe st ms) := by
  intro ms
  induction ms using Multiset.induction_on with
  | empty => intro _ st hst; simpa using hst
  | cons a s ih =>
      intro hval st hst
      rw [Multiset.foldl_cons]
      exact ih (fun c hc => hval c (Multiset.mem_cons_of_mem hc)) _
        (sound_mark_safe M st a (hval a (Multiset.mem_cons_self a s)) hst)

theorem sound_markMinesAll (M : Finset Cell) (cs : Finset Cell)
    (hcs : ∀ c ∈ cs, c ∈ M) (st : MinesweeperAI) (hst : Sound M st) :
    Sound M (markMinesAll st cs) :=
  sound_foldl_mark_mine M cs.val hcs st hst

theorem sound_markSafesAll (M : Finset Cell) (cs : Finset Cell)
    (hcs : ∀ c ∈ cs, c ∉ M) (st : MinesweeperAI) (hst : Sound M st) :
    Sound M (markSafesAll st cs) :=
  sound_foldl_mark_safe M cs.val hcs st hst

theorem known_mines_full (s : Sentence) (hk : s.known_mines = some s.cells) :
    (s.cells.card : Int) = s.count := by
  rw [Sentence.known_mines] at hk
  split at hk
  case isTrue hc => exact hc
  case isFalse => cases hk

theorem known_safes_zero (s : Sentence) (hk : s.known_safes = some s.cells) :
    s.count = 0 := by
  rw [Sentence.known_safes] at hk
  split at hk
  case isTrue hc => exact hc
  case isFalse => cases hk

theorem cells_subset_of_full (M : Finset Cell) (s : Sentence)
    (htrue : SentenceTrue M s) (hcard : (s.cells.card : Int) = s.count) :
    ∀ c ∈ s.cells, c ∈ M := by
  have hcc : (s.cells ∩ M).card = s.cells.card := by
    have := htrue.trans hcard.symm
    exact_mod_cast this
  have hinter : s.cells ∩ M = s.cells :=
    Finset.eq_of_subset_of_card_le Finset.inter_subset_left (le_of_eq hcc.symm)
  exact fun c hc => (Finset.inter_eq_left.mp hinter) hc

theorem cells_disjoint_of_zero (M : Finset Cell) (s : Sentence)
    (htrue : SentenceTrue M s) (hzero : s.count = 0) : ∀ c ∈ s.cells, c ∉ M := by
  have hcc : (s.cells ∩ M).card = 0 := by
    rw [SentenceTrue, hzero] at htrue
    exact_mod_cast htrue
  have hempty : s.cells ∩ M = ∅ := Finset.card_eq_zero.mp hcc
  intro c hc hcM
  have : c ∈ s.cells ∩ M := Finset.mem_inter.mpr ⟨hc, hcM⟩
  rw [hempty] at this
  cases this

theorem sound_resolveStep (M : Finset Cell) (st : MinesweeperAI) (i : Nat)
    (hs : Sound M st) : Sound M (resolveStep st i) := by
  rw [resolveStep]
  generalize hst1eq : (match st.knowledge.get? i with
    | none => st
    | some s => if s.known_mines = some s.cells ∧ s.cells ≠ ∅ then markMinesAll st s.cells
        else st) = st1
  have hst1 : Sound M st1 := by
    rw [← hst1eq]
    cases hget : st.knowledge.get? i with
    | none => exact hs
    | some s =>
        simp only
        split
        case isTrue hcond =>
          have hsmem : s ∈ st.knowledge := List.get?_mem hget
          have htrue := hs.2.2.2 s hsmem
          exact sound_markMinesAll M s.cells
            (cells_subset_of_full M s htrue (known_mines_full s hcond.1)) st hs
        case isFalse => exact hs
  cases hget2 : st1.knowledge.get? i with
  | none => simp only [hget2]; exact hst1
  | some s =>
      simp only [hget2]
      split
      case isTrue hcond =>
        have hsmem : s ∈ st1.knowledge := List.get?_mem hget2
        have htrue := hst1.2.2.2 s hsmem
        exact sound_markSafesAll M s.cells
          (cells_disjoint_of_zero M s htrue (known_safes_zero s hcond.1)) st1 hst1
      case isFalse => exact hst1

theorem sound_resolvePhase (M : Finset Cell) (st : MinesweeperAI)
    (hs : Sound M st) : Sound M (resolvePhase st) := by
  rw [resolvePhase]
  generalize List.range st.knowledge.length = idxs
  induction idxs generalizing st with
  | nil => exact hs
  | cons i rest ih =>
      rw [List.foldl_cons]
      exact ih (resolveStep st i) (sound_resolveStep M st i hs)

theorem prune_fold_subset : ∀ (snap k : List Sentence),
    (snap.foldl (fun k2 s => if s.cells = ∅ then k2.erase s else k2) k) ⊆ k := by
  intro snap
  induction snap with
  | nil => intro k; exact fun x hx => hx
  | cons s rest ih =>
      intro k
      rw [List.foldl_cons]
      refine (ih _).trans ?_
      split
      · exact List.erase_subset _ _
      · exact fun x hx => hx

theorem sound_prunePhase (M : Finset Cell) (st : MinesweeperAI)
    (hs : Sound M st) : Sound M (prunePhase st) := by
  obtain ⟨h1, h2, h3, h4⟩ := hs
  exact ⟨h1, h2, h3, fun s hsm => h4 s (prune_fold_subset st.knowledge st.knowledge hsm)⟩

theorem sentenceTrue_diff (M : Finset Cell) (s t : Sentence)
    (hs : SentenceTrue M s) (ht : SentenceTrue M t) (hsub : s.cells ⊆ t.cells) :
    SentenceTrue M ⟨t.cells \ s.cells, t.count - s.count⟩ := by
  rw [SentenceTrue] at hs ht ⊢
  simp only
  have hset : (t.cells \ s.cells) ∩ M = (t.cells ∩ M) \ (s.cells ∩ M) := by
    ext x
    simp only [Finset.mem_sdiff, Finset.mem_inter]
    tauto
  rw [hset, Finset.card_sdiff (Finset.inter_subset_inter hsub (Finset.Subset.refl M))]
  rw [Nat.cast_sub (Finset.card_le_card
    (Finset.inter_subset_inter hsub (Finset.Subset.refl M)))]
  rw [hs, ht]

theorem subStepK_true (M : Finset Cell) (k : List Sentence) (s t : Sentence)
    (hk : ∀ x ∈ k, SentenceTrue M x)
    (hdiff : SentenceTrue M ⟨t.cells \ s.cells, t.count - s.count⟩) :
    ∀ x ∈ subStepK k s t, SentenceTrue M x := by
  intro x hx
  rw [subStepK] at hx
  generalize hk1eq : (if (⟨t.cells \ s.cells, t.count - s.count⟩ : Sentence) ∈ k then k
      else k ++ [⟨t.cells \ s.cells, t.count - s.count⟩]) = k1 at hx
  have hk1 : ∀ y ∈ k1, SentenceTrue M y := by
    rw [← hk1eq]
    intro y hy
    split at hy
    · exact hk y hy
    · rcases List.mem_append.mp hy with hmem | hmem
      · exact hk y hmem
      · rw [List.mem_singleton.mp hmem]
        exact hdiff
  split at hx
  · exact hk1 x (List.mem_of_mem_erase hx)
  · exact hk1 x hx

theorem sub_inner_true (M : Finset Cell) (s : Sentence) (hstrue : SentenceTrue M s) :
    ∀ (l : List Sentence), (∀ x ∈ l, SentenceTrue M x) →
      ∀ acc : List Sentence × Bool, (∀ x ∈ acc.1, SentenceTrue M x) →
        ∀ x ∈ (l.foldl (fun acc2 t => subStepC acc2 s t) acc).1, SentenceTrue M x := by
  intro l
  induction l with
  | nil => intro _ acc hacc; exact hacc
  | cons t rest ih =>
      intro hl acc hacc
      rw [List.foldl_cons]
      refine ih (fun x hx => hl x (List.mem_cons_of_mem _ hx)) _ ?_
      rw [subStepC]
      split
      case isTrue hfire =>
        exact subStepK_true M acc.1 s t hacc
          (sentenceTrue_diff M s t hstrue (hl t (List.mem_cons_self _ _))
            (Finset.ssubset_def.mp hfire).1)
      case isFalse => exact hacc

theorem sub_outer_true (M : Finset Cell) (snap : List Sentence)
    (hsnap : ∀ x ∈ snap, SentenceTrue M x) :
    ∀ (l : List Sentence), (∀ x ∈ l, SentenceTrue M x) →
      ∀ acc : List Sentence × Bool, (∀ x ∈ acc.1, SentenceTrue M x) →
        ∀ x ∈ (l.foldl (fun acc s =>
            snap.foldl (fun acc2 t => subStepC acc2 s t) acc) acc).1, SentenceTrue M x := by
  intro l
  induction l with
  | nil => intro _ acc hacc; exact hacc
  | cons s rest ih =>
      intro hl acc hacc
      rw [List.foldl_cons]
      refine ih (fun x hx => hl x (List.mem_cons_of_mem _ hx)) _ ?_
      exact sub_inner_true M s (hl s (List.mem_cons_self _ _)) snap hsnap acc hacc

theorem sound_subsumptionPhase (M : Finset Cell) (st : MinesweeperAI)
    (hs : Sound M st) : Sound M (subsumptionPhase st).1 := by
  obtain ⟨h1, h2, h3, h4⟩ := hs
  refine ⟨h1, h2, h3, ?_⟩
  exact sub_outer_true M st.knowledge h4 st.knowledge h4 (st.knowledge, false) h4

theorem sound_passFn (M : Finset Cell) (st : MinesweeperAI)
    (hs : Sound M st) : Sound M (passFn st).1 :=
  sound_subsumptionPhase M _ (sound_prunePhase M _ (sound_resolvePhase M st hs))

theorem sound_deductionLoop (M : Finset Cell) :
    ∀ (n : Nat) (st st2 : MinesweeperAI), Sound M st →
      deductionLoop n st = some st2 → Sound M st2 := by
  intro n
  induction n with
  | zero => intro st st2 _ hl; cases hl
  | succ n ih =>
      intro st st2 hst hl
      rw [deductionLoop] at hl
      split at hl
      · exact ih _ _ (sound_passFn M st hst) hl
      · cases hl
        exact sound_passFn M st hst

theorem neighborScan_fold (st : MinesweeperAI) (cell : Cell) :
    ∀ (l : List Cell) (F : Finset Cell) (n : Int),
      l.foldl (fun acc c =>
        if c = cell then acc
        else if inBounds st.height st.width c then
          let acc1 := if c ∉ st.mines ∧ c ∉ st.safes ∧ c ∉ st.moves_made
            then (insert c acc.1, acc.2) else acc
          if c ∈ st.mines then (acc1.1, acc1.2 - 1) else acc1
        else acc) (F, n) =
      (F ∪ ((l.filter (fun c => decide (¬c = cell ∧ inBounds st.height st.width c))).filter
          (fun c => decide (c ∉ st.mines ∧ c ∉ st.safes ∧ c ∉ st.moves_made))).toFinset,
       n - (((l.filter (fun c => decide (¬c = cell ∧ inBounds st.height st.width c))).filter
          (fun c => decide (c ∈ st.mines))).length : Int)) := by
  intro l
  induction l with
  | nil => intro F n; simp
  | cons c rest ih =>
      intro F n
      rw [List.foldl_cons]
      by_cases hcell : c = cell
      · simp only [if_pos hcell, List.filter_cons, hcell]
        simp [ih]
      · by_cases hinb : inBounds st.height st.width c
        · by_cases hunk : c ∉ st.mines ∧ c ∉ st.safes ∧ c ∉ st.moves_made
          · have hmine : c ∉ st.mines := hunk.1
            simp only [if_neg hcell, if_pos hinb, if_pos hunk, if_neg hmine]
            rw [ih]
            simp only [List.filter_cons, decide_eq_true_eq]
            rw [if_pos ⟨hcell, hinb⟩]
            simp only [List.filter_cons, decide_eq_true_eq]
            rw [if_pos hunk, if_neg hmine]
            simp [List.toFinset_cons, Finset.union_comm, Finset.insert_union,
              Finset.union_insert]
          · by_cases hmine : c ∈ st.mines
            · simp only [if_neg hcell, if_pos hinb, if_neg hunk, if_pos hmine]
              rw [ih]
              simp only [List.filter_cons, decide_eq_true_eq]
              rw [if_pos ⟨hcell, hinb⟩]
              simp only [List.filter_cons, decide_eq_true_eq]
              rw [if_neg hunk, if_pos hmine]
              simp only [List.length_cons]
              rw [Prod.mk.injEq]
              refine ⟨rfl, ?_⟩
              push_cast
              ring
            · simp only [if_neg hcell, if_pos hinb, if_neg hunk, if_neg hmine]
              rw [ih]
              simp only [List.filter_cons, decide_eq_true_eq]
              rw [if_pos ⟨hcell, hinb⟩]
              simp only [List.filter_cons, decide_eq_true_eq]
              rw [if_neg hunk, if_neg hmine]
        · simp only [if_neg hcell, if_neg hinb]
          rw [ih]
          simp only [List.filter_cons, decide_eq_true_eq]
          rw [if_neg (fun hcon => hinb hcon.2)]

theorem neighborScan_spec (st : MinesweeperAI) (cell : Cell) (count : Int) :
    neighborScan st cell count =
      ((((neighborCandidates cell).filter
          (fun c => decide (¬c = cell ∧ inBounds st.height st.width c))).filter
          (fun c => decide (c ∉ st.mines ∧ c ∉ st.safes ∧ c ∉ st.moves_made))).toFinset,
       count - ((((neighborCandidates cell).filter
          (fun c => decide (¬c = cell ∧ inBounds st.height st.width c))).filter
          (fun c => decide (c ∈ st.mines))).length : Int)) := by
  rw [neighborScan, neighborScan_fold]
  simp

theorem neighborCandidates_nodup (cell : Cell) : (neighborCandidates cell).Nodup := by
  simp [neighborCandidates, Prod.ext_iff]
  omega

theorem toFinset_inter_card (u : List Cell) (hnodup : u.Nodup) (M : Finset Cell) :
    (u.toFinset ∩ M).card = (u.filter (fun c => decide (c ∈ M))).length := by
  have hset : u.toFinset ∩ M = (u.filter (fun c => decide (c ∈ M))).toFinset := by
    ext x
    simp [List.mem_toFinset, List.mem_filter]
  rw [hset, List.toFinset_card_of_nodup (hnodup.filter _)]

theorem filter_conj (l : List Cell) (p q : Cell → Prop)
    [DecidablePred p] [DecidablePred q] :
    l.filter (fun c => decide (p c ∧ q c)) =
      (l.filter (fun c => decide (p c))).filter (fun c => decide (q c)) := by
  induction l with
  | nil => rfl
  | cons c rest ih =>
      have hcomm : ∀ (l2 : List Cell),
          List.filter (fun c => decide (p c) && decide (q c)) l2 =
            List.filter (fun a => decide (q a) && decide (p a)) l2 :=
        fun l2 => List.filter_congr
          (fun a _ => by by_cases hpa : p a <;> by_cases hqa : q a <;> simp [hpa, hqa])
      simp only [List.filter_cons]
      by_cases hp : p c
      · by_cases hq : q c
        · simp [hp, hq, List.filter_cons, ih, hcomm rest]
        · simp [hp, hq, List.filter_cons, ih, hcomm rest]
      · simp [hp, List.filter_cons, ih, hcomm rest]

theorem count_partition (M : Finset Cell) (st : MinesweeperAI)
    (hmines : st.mines ⊆ M) (hsafes : ∀ c ∈ st.safes, c ∉ M)
    (hmoves : st.moves_made ⊆ st.safes) :
    ∀ l : List Cell,
      (l.filter (fun c => decide (c ∈ M))).length =
        ((l.filter (fun c => decide (c ∉ st.mines ∧ c ∉ st.safes ∧ c ∉ st.moves_made))).filter
          (fun c => decide (c ∈ M))).length +
        (l.filter (fun c => decide (c ∈ st.mines))).length := by
  intro l
  induction l with
  | nil => rfl
  | cons c rest ih =>
      simp only [List.filter_cons]
      by_cases hmin : c ∈ st.mines
      · have hM : c ∈ M := hmines hmin
        have hunk : ¬(c ∉ st.mines ∧ c ∉ st.safes ∧ c ∉ st.moves_made) :=
          fun hcon => hcon.1 hmin
        simp [hM, hmin, hunk, ih]
        omega
      · by_cases hunk2 : c ∉ st.safes ∧ c ∉ st.moves_made
        · have hunk : c ∉ st.mines ∧ c ∉ st.safes ∧ c ∉ st.moves_made :=
            ⟨hmin, hunk2.1, hunk2.2⟩
          by_cases hM : c ∈ M <;>
            simp [hmin, hunk, hM, List.filter_cons, ih] <;> omega
        · have hsafe : c ∈ st.safes := by
            rcases not_and_or.mp hunk2 with hcon | hcon
            · exact not_not.mp hcon
            · exact hmoves (not_not.mp hcon)
          have hM : c ∉ M := hsafes c hsafe
          simp [hmin, hunk2, hM, ih]

theorem new_sentence_true (M : Finset Cell) (st : MinesweeperAI) (cell : Cell)
    (hmines : st.mines ⊆ M) (hsafes : ∀ c ∈ st.safes, c ∉ M)
    (hmoves : st.moves_made ⊆ st.safes) :
    SentenceTrue M ⟨(neighborScan st cell (trueCount st.height st.width M cell)).1,
      (neighborScan st cell (trueCount st.height st.width M cell)).2⟩ := by
  rw [SentenceTrue, neighborScan_spec]
  simp only
  set L := (neighborCandidates cell).filter
    (fun c => decide (¬c = cell ∧ inBounds st.height st.width c)) with hLdef
  have hnodup : L.Nodup := List.Nodup.filter _ (neighborCandidates_nodup cell)
  have hUnodup : (L.filter
      (fun c => decide (c ∉ st.mines ∧ c ∉ st.safes ∧ c ∉ st.moves_made))).Nodup :=
    List.Nodup.filter _ hnodup
  rw [toFinset_inter_card _ hUnodup M]
  have hpredeq : (fun c => decide (c ≠ cell ∧ inBounds st.height st.width c ∧ c ∈ M))
      = (fun c => decide ((¬c = cell ∧ inBounds st.height st.width c) ∧ c ∈ M)) :=
    funext fun c => decide_eq_decide.mpr (by tauto)
  have htc : trueCount st.height st.width M cell
      = ((L.filter (fun c => decide (c ∈ M))).length : Int) := by
    rw [trueCount, hLdef, hpredeq,
      filter_conj (neighborCandidates cell)
        (fun c => ¬c = cell ∧ inBounds st.height st.width c) (fun c => c ∈ M)]
  rw [htc]
  have hcount := count_partition M st hmines hsafes hmoves L
  omega

theorem sentenceTrue_mark_safe (M : Finset Cell) (s : Sentence) (c : Cell)
    (hc : c ∉ M) (htrue : SentenceTrue M s) : SentenceTrue M (s.mark_safe c) := by
  rw [Sentence.mark_safe]
  split
  case isTrue hmem =>
    rw [SentenceTrue] at htrue ⊢
    simp only
    rw [Finset.erase_inter, Finset.erase_eq_of_not_mem
      (fun hcon => hc (Finset.mem_inter.mp hcon).2)]
    exact htrue
  case isFalse => exact htrue

theorem sound_add_knowledge (M : Finset Cell) (st : MinesweeperAI) (cell : Cell)
    (fuel : Nat) (st2 : MinesweeperAI) (hs : Sound M st) (hcell : cell ∉ M)
    (hcall : st.add_knowledge fuel cell
      (trueCount st.height st.width M cell) = some st2) :
    Sound M st2 := by
  rw [MinesweeperAI.add_knowledge] at hcall
  refine sound_deductionLoop M fuel _ st2 ?_ hcall
  have hsound2 : Sound M
      (({ st with moves_made := insert cell st.moves_made } : MinesweeperAI).mark_safe
        cell) := by
    obtain ⟨h1, h2, h3, h4⟩ := hs
    rw [MinesweeperAI.mark_safe]
    refine ⟨h1, ?_, ?_, ?_⟩
    · intro x hx
      rcases Finset.mem_insert.mp hx with rfl | hold
      · exact hcell
      · exact h2 x hold
    · exact Finset.insert_subset_insert cell h3
    · intro s' hs'
      simp only [List.mem_map] at hs'
      obtain ⟨s, hsmem, rfl⟩ := hs'
      exact sentenceTrue_mark_safe M s cell hcell (h4 s hsmem)
  obtain ⟨g1, g2, g3, g4⟩ := hsound2
  refine ⟨g1, g2, g3, ?_⟩
  intro s' hs'
  rcases List.mem_append.mp hs' with hmem | hmem
  · exact g4 s' hmem
  · rw [List.mem_singleton.mp hmem]
    exact new_sentence_true M
      (({ st with moves_made := insert cell st.moves_made } : MinesweeperAI).mark_safe
        cell) cell g1 g2 g3

theorem sound_of_reach (M : Finset Cell) (st : MinesweeperAI)
    (h : ConsistentReach M st) : Sound M st := by
  induction h with
  | init h w =>
      refine ⟨Finset.empty_subset M, ?_, ?_, ?_⟩
      · intro c hc; cases hc
      · exact Finset.empty_subset _
      · intro s hsm; cases hsm
  | step st st2 cell fuel hreach hcell hcall ih =>
      exact sound_add_knowledge M st cell fuel st2 ih hcell hcall

/-- Amended claim C3: for every sequence of `add_knowledge` calls that is
consistent with a single mine assignment `M` (each revealed cell is not a
mine and the reported count is the true adjacent-mine count), the sets of
known mines and known safes stay disjoint after every call. -/
theorem claim_C3_amended (M : Finset Cell) (st : MinesweeperAI)
    (hreach : ConsistentReach M st) : st.mines ∩ st.safes = ∅ := by
  obtain ⟨h1, h2, _, _⟩ := sound_of_reach M st hreach
  rw [Finset.eq_empty_iff_forall_not_mem]
  intro x hx
  obtain ⟨hxm, hxs⟩ := Finset.mem_inter.mp hx
  exact h2 x hxs (h1 hxm)

/-- Counterexample to claim C3 as stated: an (inconsistent) sequence of two
`add_knowledge` calls on a fresh 2×2 AI — first claiming all three neighbors
of `(0,0)` are mines, then revealing `(0,1)` as a safe cell — leaves `(0,1)`
in both `mines` and `safes`, so the two sets are not disjoint. -/
theorem claim_C3_counterexample :
    (((MinesweeperAI.add_knowledge 1 (MinesweeperAI.init 2 2) ((0:Int),(0:Int)) 3).bind
        (fun s1 => MinesweeperAI.add_knowledge 1 s1 ((0:Int),(1:Int)) 0)).map
      (fun s2 => decide (((0:Int),(1:Int)) ∈ s2.mines) &&
        decide (((0:Int),(1:Int)) ∈ s2.safes) &&
        decide (s2.mines ∩ s2.safes ≠ ∅))).getD false = true := by
  decide

/-- Witness for the amended C3: a consistent one-call run on a mine-free 1×1
board reaches a state with disjoint mines/safes. -/
theorem claim_C3_witness :
    (⟨1, 1, {((0:Int),(0:Int))}, ∅, {((0:Int),(0:Int))}, []⟩ : MinesweeperAI).mines ∩
      (⟨1, 1, {((0:Int),(0:Int))}, ∅, {((0:Int),(0:Int))}, []⟩ : MinesweeperAI).safes
      = ∅ :=
  claim_C3_amended ∅ _
    (ConsistentReach.step (MinesweeperAI.init 1 1) _ ((0:Int),(0:Int)) 1
      (ConsistentReach.init 1 1) (by decide) (by decide))

/-! ## Claim C5: termination of the deduction loop -/

theorem profOf_apply (m : Multiset Nat) (v : Nat) :
    (ofLex (profOf m)) (OrderDual.toDual v) = m.count v := by
  rw [profOf]
  show Multiset.toFinsupp (m.map (fun n => OrderDual.toDual n)) (OrderDual.toDual v)
    = m.count v
  rw [Multiset.toFinsupp_apply]
  exact Multiset.count_map_eq_count' _ m (OrderDual.toDual.injective) v

theorem profOf_lt_of_balance (M M2 A X : Multiset Nat)
    (hbal : M2 + X = M + A) (hX : X ≠ 0)
    (hA : ∀ a ∈ A, ∃ x ∈ X, a < x) : profOf M2 < profOf M := by
  have hcount : ∀ v : Nat, M2.count v + X.count v = M.count v + A.count v := by
    intro v
    have := congrArg (Multiset.count v) hbal
    simpa [Multiset.count_add] using this
  obtain ⟨D, hDmem, hDmax⟩ : ∃ D ∈ X, ∀ x ∈ X, x ≤ D := by
    have hne : X.toFinset.Nonempty := by
      rw [Multiset.toFinset_nonempty]
      exact hX
    refine ⟨X.toFinset.max' hne, Multiset.mem_toFinset.mp (X.toFinset.max'_mem hne), ?_⟩
    intro x hx
    exact X.toFinset.le_max' x (Multiset.mem_toFinset.mpr hx)
  have hAltD : ∀ a ∈ A, a < D := by
    intro a ha
    obtain ⟨x, hx, hax⟩ := hA a ha
    exact lt_of_lt_of_le hax (hDmax x hx)
  show Finsupp.Lex (· < ·) (· < ·) (ofLex (profOf M2)) (ofLex (profOf M))
  rw [Finsupp.lex_def]
  refine ⟨OrderDual.toDual D, ?_, ?_⟩
  · intro j hj
    have hvD : D < OrderDual.ofDual j := hj
    have hXv : X.count (OrderDual.ofDual j) = 0 :=
      Multiset.count_eq_zero.mpr (fun hmem => absurd (hDmax _ hmem) (not_le.mpr hvD))
    have hAv : A.count (OrderDual.ofDual j) = 0 :=
      Multiset.count_eq_zero.mpr
        (fun hmem => absurd (lt_trans (hAltD _ hmem) hvD) (lt_irrefl _))
    have hj2 : j = OrderDual.toDual (OrderDual.ofDual j) := rfl
    rw [hj2, profOf_apply, profOf_apply]
    have := hcount (OrderDual.ofDual j)
    omega
  · have hXD : 0 < X.count D := Multiset.count_pos.mpr hDmem
    have hAD : A.count D = 0 :=
      Multiset.count_eq_zero.mpr (fun hmem => lt_irrefl D (hAltD D hmem))
    show (ofLex (profOf M2)) (OrderDual.toDual D) < (ofLex (profOf M)) (OrderDual.toDual D)
    rw [profOf_apply, profOf_apply]
    have := hcount D
    omega

theorem profOf_le_of_balance (M M2 A X : Multiset Nat)
    (hbal : M2 + X = M + A)
    (hA : ∀ a ∈ A, ∃ x ∈ X, a < x) : profOf M2 ≤ profOf M := by
  by_cases hX : X = 0
  · subst hX
    have hA0 : A = 0 := by
      rw [Multiset.eq_zero_iff_forall_not_mem]
      intro a ha
      obtain ⟨x, hx, -⟩ := hA a ha
      cases hx
    rw [hA0] at hbal
    simp only [add_zero] at hbal
    exact le_of_eq (congrArg profOf hbal)
  · exact le_of_lt (profOf_lt_of_balance M M2 A X hbal hX hA)

theorem profOf_mono (m m2 : Multiset Nat) (h : m2 ≤ m) : profOf m2 ≤ profOf m := by
  refine profOf_le_of_balance m m2 0 (m - m2) ?_ (by intro a ha; cases ha)
  rw [add_zero, add_comm]
  exact tsub_add_cancel_of_le h

theorem sizesM_map_balance (f : Sentence → Sentence)
    (h : ∀ s, (f s).cells.card ≤ s.cells.card) :
    ∀ k : List Sentence, ∃ A X : Multiset Nat,
      sizesM (k.map f) + X = sizesM k + A ∧ ∀ a ∈ A, ∃ x ∈ X, a < x := by
  intro k
  induction k with
  | nil => exact ⟨0, 0, rfl, by intro a ha; cases ha⟩
  | cons s rest ih =>
      obtain ⟨A, X, hbal, hA⟩ := ih
      rcases lt_or_eq_of_le (h s) with hlt | heq
      · refine ⟨(f s).cells.card ::ₘ A, s.cells.card ::ₘ X, ?_, ?_⟩
        · show ((f s).cells.card ::ₘ sizesM (rest.map f)) + (s.cells.card ::ₘ X) =
            (s.cells.card ::ₘ sizesM rest) + ((f s).cells.card ::ₘ A)
          rw [Multiset.cons_add, Multiset.add_cons, Multiset.cons_add, Multiset.add_cons,
            hbal]
          rw [Multiset.cons_swap]
        · intro a ha
          rcases Multiset.mem_cons.mp ha with rfl | hmem
          · exact ⟨s.cells.card, Multiset.mem_cons_self _ _, hlt⟩
          · obtain ⟨x, hx, hax⟩ := hA a hmem
            exact ⟨x, Multiset.mem_cons_of_mem hx, hax⟩
      · refine ⟨A, X, ?_, hA⟩
        show ((f s).cells.card ::ₘ sizesM (rest.map f)) + X =
          (s.cells.card ::ₘ sizesM rest) + A
        rw [Multiset.cons_add, Multiset.cons_add, hbal, heq]

theorem measureAI_mark_mine (st : MinesweeperAI) (c : Cell) :
    measureAI (st.mark_mine c) ≤ measureAI st := by
  obtain ⟨A, X, hbal, hA⟩ := sizesM_map_balance (fun s => s.mark_mine c)
    (fun s => by
      show (s.mark_mine c).cells.card ≤ s.cells.card
      rw [Sentence.mark_mine]
      split
      · exact Finset.card_erase_le.trans (le_refl _)
      · exact le_refl _) st.knowledge
  exact profOf_le_of_balance _ _ A X hbal hA

theorem measureAI_mark_safe (st : MinesweeperAI) (c : Cell) :
    measureAI (st.mark_safe c) ≤ measureAI st := by
  obtain ⟨A, X, hbal, hA⟩ := sizesM_map_balance (fun s => s.mark_safe c)
    (fun s => by
      show (s.mark_safe c).cells.card ≤ s.cells.card
      rw [Sentence.mark_safe]
      split
      · exact Finset.card_erase_le.trans (le_refl _)
      · exact le_refl _) st.knowledge
  exact profOf_le_of_balance _ _ A X hbal hA

theorem measureAI_foldl_mark_mine (ms : Multiset Cell) :
    ∀ st : MinesweeperAI, measureAI (Multiset.foldl MinesweeperAI.mark_mine st ms)
      ≤ measureAI st := by
  induction ms using Multiset.induction_on with
  | empty => intro st; simp
  | cons a s ih =>
      intro st
      rw [Multiset.foldl_cons]
      exact (ih _).trans (measureAI_mark_mine st a)

theorem measureAI_foldl_mark_safe (ms : Multiset Cell) :
    ∀ st : MinesweeperAI, measureAI (Multiset.foldl MinesweeperAI.mark_safe st ms)
      ≤ measureAI st := by
  induction ms using Multiset.induction_on with
  | empty => intro st; simp
  | cons a s ih =>
      intro st
      rw [Multiset.foldl_cons]
      exact (ih _).trans (measureAI_mark_safe st a)

theorem measureAI_resolveStep (st : MinesweeperAI) (i : Nat) :
    measureAI (resolveStep st i) ≤ measureAI st := by
  rw [resolveStep]
  generalize hst1eq : (match st.knowledge.get? i with
    | none => st
    | some s => if s.known_mines = some s.cells ∧ s.cells ≠ ∅ then markMinesAll st s.cells
        else st) = st1
  have hle1 : measureAI st1 ≤ measureAI st := by
    rw [← hst1eq]
    cases st.knowledge.get? i with
    | none => exact le_refl _
    | some s =>
        simp only
        split
        · exact measureAI_foldl_mark_mine _ st
        · exact le_refl _
  cases st1.knowledge.get? i with
  | none => exact hle1
  | some s =>
      simp only
      split
      · exact (measureAI_foldl_mark_safe _ st1).trans hle1
      · exact hle1

theorem measureAI_resolvePhase (st : MinesweeperAI) :
    measureAI (resolvePhase st) ≤ measureAI st := by
  rw [resolvePhase]
  generalize List.range st.knowledge.length = idxs
  induction idxs generalizing st with
  | nil => exact le_refl _
  | cons i rest ih =>
      rw [List.foldl_cons]
      exact (ih (resolveStep st i)).trans (measureAI_resolveStep st i)

theorem prune_fold_multiset_le : ∀ (snap k : List Sentence),
    ((snap.foldl (fun k2 s => if s.cells = ∅ then k2.erase s else k2) k : List Sentence) :
      Multiset Sentence) ≤ (k : Multiset Sentence) := by
  intro snap
  induction snap with
  | nil => intro k; exact le_refl _
  | cons s rest ih =>
      intro k
      rw [List.foldl_cons]
      refine (ih _).trans ?_
      split
      · rw [← Multiset.coe_erase]
        exact Multiset.erase_le _ _
      · exact le_refl _

theorem measureAI_prunePhase (st : MinesweeperAI) :
    measureAI (prunePhase st) ≤ measureAI st := by
  refine profOf_mono _ _ ?_
  have h := prune_fold_multiset_le st.knowledge st.knowledge
  have h2 := Multiset.map_le_map (f := fun s : Sentence => s.cells.card) h
  simpa [sizesM, Multiset.map_coe] using h2

theorem diff_ne_superset (s t : Sentence) (hsub : s.cells ⊂ t.cells)
    (hne : s.cells ≠ ∅) :
    (⟨t.cells \ s.cells, t.count - s.count⟩ : Sentence) ≠ t := by
  intro hcon
  have hcells : t.cells \ s.cells = t.cells := congrArg Sentence.cells hcon
  obtain ⟨x, hx⟩ := Finset.nonempty_iff_ne_empty.mpr hne
  have hxt : x ∈ t.cells := (Finset.ssubset_def.mp hsub).1 hx
  have hmem : x ∈ t.cells \ s.cells := hcells.symm ▸ hxt
  exact (Finset.mem_sdiff.mp hmem).2 hx

theorem diff_card_lt (s t : Sentence) (hsub : s.cells ⊂ t.cells) (hne : s.cells ≠ ∅) :
    (t.cells \ s.cells).card < t.cells.card := by
  have hsubset : s.cells ⊆ t.cells := (Finset.ssubset_def.mp hsub).1
  rw [Finset.card_sdiff hsubset]
  have hpos : 0 < s.cells.card := Finset.card_pos.mpr (Finset.nonempty_iff_ne_empty.mpr hne)
  have hle : s.cells.card ≤ t.cells.card := Finset.card_le_card hsubset
  omega

theorem subStepC_inv (snap : List Sentence) (hne : ∀ x ∈ snap, x.cells ≠ ∅)
    (s t : Sentence) (hs : s ∈ snap) (ht : t ∈ snap)
    (acc : List Sentence × Bool) (k0 A X : Multiset Sentence)
    (hbal : (acc.1 : Multiset Sentence) + X = k0 + A)
    (hA : ∀ a ∈ A, ∃ x ∈ X, a.cells.card < x.cells.card)
    (hI1 : ∀ T ∈ snap, T ∈ acc.1 ∨ T ∈ X) :
    ∃ A2 X2 : Multiset Sentence,
      ((subStepC acc s t).1 : Multiset Sentence) + X2 = k0 + A2 ∧
      (∀ a ∈ A2, ∃ x ∈ X2, a.cells.card < x.cells.card) ∧
      (∀ T ∈ snap, T ∈ (subStepC acc s t).1 ∨ T ∈ X2) ∧
      X ≤ X2 ∧
      ((subStepC acc s t).2 = true → acc.2 = true ∨ X2 ≠ 0) := by
  rw [subStepC]
  split
  case isFalse hfire =>
    exact ⟨A, X, hbal, hA, hI1, le_refl X, fun h => Or.inl h⟩
  case isTrue hfire =>
    have hsne : s.cells ≠ ∅ := hne s hs
    have hct : (⟨t.cells \ s.cells, t.count - s.count⟩ : Sentence) ≠ t :=
      diff_ne_superset s t hfire hsne
    have hclt : (t.cells \ s.cells).card < t.cells.card := diff_card_lt s t hfire hsne
    simp only
    rw [subStepK]
    by_cases hcmem : (⟨t.cells \ s.cells, t.count - s.count⟩ : Sentence) ∈ acc.1
    · rw [if_pos hcmem]
      by_cases htk : t ∈ acc.1
      · rw [if_pos htk]
        refine ⟨A, X + {t}, ?_, ?_, ?_, Multiset.le_add_right X {t}, ?_⟩
        · rw [← Multiset.coe_erase, add_left_comm]
          have h1 : ((acc.1 : Multiset Sentence)).erase t + {t} = ↑acc.1 := by
            rw [add_comm, Multiset.singleton_add]
            exact Multiset.cons_erase (Multiset.mem_coe.mpr htk)
          rw [h1, add_comm X _, hbal]
        · intro a ha
          obtain ⟨x, hx, hax⟩ := hA a ha
          exact ⟨x, Multiset.mem_add.mpr (Or.inl hx), hax⟩
        · intro T hT
          rcases hI1 T hT with hTk | hTX
          · by_cases hTt : T = t
            · exact Or.inr (Multiset.mem_add.mpr (Or.inr (by simp [hTt])))
            · exact Or.inl ((List.mem_erase_of_ne hTt).mpr hTk)
          · exact Or.inr (Multiset.mem_add.mpr (Or.inl hTX))
        · intro _
          refine Or.inr ?_
          intro hcon
          have : t ∈ X + {t} := Multiset.mem_add.mpr (Or.inr (by simp))
          rw [hcon] at this
          cases this
      · rw [if_neg htk]
        refine ⟨A, X, hbal, hA, hI1, le_refl X, ?_⟩
        intro _
        refine Or.inr ?_
        rcases hI1 t ht with hTk | hTX
        · exact absurd hTk htk
        · intro hcon
          rw [hcon] at hTX
          cases hTX
    · rw [if_neg hcmem]
      by_cases htk1 : t ∈ acc.1 ++ [⟨t.cells \ s.cells, t.count - s.count⟩]
      · have htacc : t ∈ acc.1 := by
          rcases List.mem_append.mp htk1 with hmem | hmem
          · exact hmem
          · exact absurd (List.mem_singleton.mp hmem).symm hct
        rw [if_pos htk1]
        refine ⟨A + {⟨t.cells \ s.cells, t.count - s.count⟩}, X + {t}, ?_, ?_, ?_,
          Multiset.le_add_right X {t}, ?_⟩
        · rw [← Multiset.coe_erase, add_left_comm]
          have hco : (↑(acc.1 ++ [(⟨t.cells \ s.cells, t.count - s.count⟩ : Sentence)]) :
              Multiset Sentence) = ↑acc.1 + {⟨t.cells \ s.cells, t.count - s.count⟩} := by
            rw [← Multiset.coe_add]
            rfl
          have htmem : t ∈ (↑acc.1 + ({⟨t.cells \ s.cells, t.count - s.count⟩} :
              Multiset Sentence)) :=
            Multiset.mem_add.mpr (Or.inl (Multiset.mem_coe.mpr htacc))
          rw [hco]
          have h1 : (↑acc.1 + ({⟨t.cells \ s.cells, t.count - s.count⟩} :
              Multiset Sentence)).erase t + {t} =
              ↑acc.1 + {⟨t.cells \ s.cells, t.count - s.count⟩} := by
            rw [add_comm _ ({t} : Multiset Sentence), Multiset.singleton_add]
            exact Multiset.cons_erase htmem
          rw [h1]
          have : (↑acc.1 : Multiset Sentence) +
              {(⟨t.cells \ s.cells, t.count - s.count⟩ : Sentence)} + X =
              k0 + (A + {⟨t.cells \ s.cells, t.count - s.count⟩}) := by
            rw [add_right_comm, hbal, add_assoc]
          rw [← this]
          rw [add_comm X _]
        · intro a ha
          rcases Multiset.mem_add.mp ha with hmem | hmem
          · obtain ⟨x, hx, hax⟩ := hA a hmem
            exact ⟨x, Multiset.mem_add.mpr (Or.inl hx), hax⟩
          · rw [Multiset.mem_singleton.mp hmem]
            exact ⟨t, Multiset.mem_add.mpr (Or.inr (by simp)), hclt⟩
        · intro T hT
          rcases hI1 T hT with hTk | hTX
          · by_cases hTt : T = t
            · exact Or.inr (Multiset.mem_add.mpr (Or.inr (by simp [hTt])))
            · refine Or.inl ((List.mem_erase_of_ne hTt).mpr ?_)
              exact List.mem_append.mpr (Or.inl hTk)
          · exact Or.inr (Multiset.mem_add.mpr (Or.inl hTX))
        · intro _
          refine Or.inr ?_
          intro hcon
          have : t ∈ X + {t} := Multiset.mem_add.mpr (Or.inr (by simp))
          rw [hcon] at this
          cases this
      · rw [if_neg htk1]
        have htX : t ∈ X := by
          rcases hI1 t ht with hTk | hTX
          · exact absurd (List.mem_append.mpr (Or.inl hTk)) htk1
          · exact hTX
        refine ⟨A + {⟨t.cells \ s.cells, t.count - s.count⟩}, X, ?_, ?_, ?_,
          le_refl X, ?_⟩
        · have hco : (↑(acc.1 ++ [(⟨t.cells \ s.cells, t.count - s.count⟩ : Sentence)]) :
              Multiset Sentence) = ↑acc.1 + {⟨t.cells \ s.cells, t.count - s.count⟩} := by
            rw [← Multiset.coe_add]
            rfl
          rw [hco, add_right_comm, hbal, add_assoc]
        · intro a ha
          rcases Multiset.mem_add.mp ha with hmem | hmem
          · exact hA a hmem
          · rw [Multiset.mem_singleton.mp hmem]
            exact ⟨t, htX, hclt⟩
        · intro T hT
          rcases hI1 T hT with hTk | hTX
          · exact Or.inl (List.mem_append.mpr (Or.inl hTk))
          · exact Or.inr hTX
        · intro _
          refine Or.inr ?_
          intro hcon
          rw [hcon] at htX
          cases htX

theorem sub_inner_inv (snap : List Sentence) (hne : ∀ x ∈ snap, x.cells ≠ ∅)
    (s : Sentence) (hs : s ∈ snap) :
    ∀ (l : List Sentence), (∀ x ∈ l, x ∈ snap) →
    ∀ (acc : List Sentence × Bool) (k0 A X : Multiset Sentence),
      ((acc.1 : Multiset Sentence) + X = k0 + A) →
      (∀ a ∈ A, ∃ x ∈ X, a.cells.card < x.cells.card) →
      (∀ T ∈ snap, T ∈ acc.1 ∨ T ∈ X) →
      ∃ A2 X2 : Multiset Sentence,
        (((l.foldl (fun acc2 t => subStepC acc2 s t) acc).1 : Multiset Sentence) + X2
          = k0 + A2) ∧
        (∀ a ∈ A2, ∃ x ∈ X2, a.cells.card < x.cells.card) ∧
        (∀ T ∈ snap, T ∈ (l.foldl (fun acc2 t => subStepC acc2 s t) acc).1 ∨ T ∈ X2) ∧
        X ≤ X2 ∧
        ((l.foldl (fun acc2 t => subStepC acc2 s t) acc).2 = true →
          acc.2 = true ∨ X2 ≠ 0) := by
  intro l
  induction l with
  | nil =>
      intro _ acc k0 A X hbal hA hI1
      exact ⟨A, X, hbal, hA, hI1, le_refl X, fun h => Or.inl h⟩
  | cons t rest ih =>
      intro hl acc k0 A X hbal hA hI1
      rw [List.foldl_cons]
      obtain ⟨A1, X1, hbal1, hA1, hI11, hXle1, hflag1⟩ :=
        subStepC_inv snap hne s t hs (hl t (List.mem_cons_self _ _)) acc k0 A X hbal hA hI1
      obtain ⟨A2, X2, hbal2, hA2, hI12, hXle2, hflag2⟩ :=
        ih (fun x hx => hl x (List.mem_cons_of_mem _ hx)) (subStepC acc s t) k0 A1 X1
          hbal1 hA1 hI11
      refine ⟨A2, X2, hbal2, hA2, hI12, hXle1.trans hXle2, ?_⟩
      intro hfl
      rcases hflag2 hfl with hfl1 | hX2
      · rcases hflag1 hfl1 with h0 | hX1
        · exact Or.inl h0
        · refine Or.inr ?_
          intro hcon
          rw [hcon] at hXle2
          exact hX1 (Multiset.le_zero.mp hXle2)
      · exact Or.inr hX2

theorem sub_outer_inv (snap : List Sentence) (hne : ∀ x ∈ snap, x.cells ≠ ∅) :
    ∀ (l : List Sentence), (∀ x ∈ l, x ∈ snap) →
    ∀ (acc : List Sentence × Bool) (k0 A X : Multiset Sentence),
      ((acc.1 : Multiset Sentence) + X = k0 + A) →
      (∀ a ∈ A, ∃ x ∈ X, a.cells.card < x.cells.card) →
      (∀ T ∈ snap, T ∈ acc.1 ∨ T ∈ X) →
      ∃ A2 X2 : Multiset Sentence,
        (((l.foldl (fun acc2 s => snap.foldl (fun acc3 t => subStepC acc3 s t) acc2)
            acc).1 : Multiset Sentence) + X2 = k0 + A2) ∧
        (∀ a ∈ A2, ∃ x ∈ X2, a.cells.card < x.cells.card) ∧
        (∀ T ∈ snap,
          T ∈ (l.foldl (fun acc2 s => snap.foldl (fun acc3 t => subStepC acc3 s t) acc2)
            acc).1 ∨ T ∈ X2) ∧
        X ≤ X2 ∧
        ((l.foldl (fun acc2 s => snap.foldl (fun acc3 t => subStepC acc3 s t) acc2)
            acc).2 = true → acc.2 = true ∨ X2 ≠ 0) := by
  intro l
  induction l with
  | nil =>
      intro _ acc k0 A X hbal hA hI1
      exact ⟨A, X, hbal, hA, hI1, le_refl X, fun h => Or.inl h⟩
  | cons s rest ih =>
      intro hl acc k0 A X hbal hA hI1
      rw [List.foldl_cons]
      obtain ⟨A1, X1, hbal1, hA1, hI11, hXle1, hflag1⟩ :=
        sub_inner_inv snap hne s (hl s (List.mem_cons_self _ _)) snap (fun x hx => hx)
          acc k0 A X hbal hA hI1
      obtain ⟨A2, X2, hbal2, hA2, hI12, hXle2, hflag2⟩ :=
        ih (fun x hx => hl x (List.mem_cons_of_mem _ hx)) _ k0 A1 X1 hbal1 hA1 hI11
      refine ⟨A2, X2, hbal2, hA2, hI12, hXle1.trans hXle2, ?_⟩
      intro hfl
      rcases hflag2 hfl with hfl1 | hX2
      · rcases hflag1 hfl1 with h0 | hX1
        · exact Or.inl h0
        · refine Or.inr ?_
          intro hcon
          rw [hcon] at hXle2
          exact hX1 (Multiset.le_zero.mp hXle2)
      · exact Or.inr hX2

theorem subsumption_measure (st : MinesweeperAI)
    (hne : ∀ x ∈ st.knowledge, x.cells ≠ ∅)
    (hchg : (subsumptionPhase st).2 = true) :
    measureAI (subsumptionPhase st).1 < measureAI st := by
  obtain ⟨A2, X2, hbal, hA, -, -, hflag⟩ :=
    sub_outer_inv st.knowledge hne st.knowledge (fun x hx => hx)
      (st.knowledge, false) (st.knowledge : Multiset Sentence) 0 0
      (by simp) (by intro a ha; cases ha) (fun T hT => Or.inl hT)
  have hX2 : X2 ≠ 0 := by
    have := hflag hchg
    rcases this with hcon | h
    · cases hcon
    · exact h
  have hksz : sizesM (subsumptionPhase st).1.knowledge + X2.map (fun x => x.cells.card)
      = sizesM st.knowledge + A2.map (fun x => x.cells.card) := by
    have := congrArg (Multiset.map (fun x : Sentence => x.cells.card)) hbal
    simpa [sizesM, Multiset.map_coe, subsumptionPhase] using this
  refine profOf_lt_of_balance (sizesM st.knowledge) _
    (A2.map (fun x => x.cells.card)) (X2.map (fun x => x.cells.card)) hksz ?_ ?_
  · intro hcon
    exact hX2 (Multiset.map_eq_zero.mp hcon)
  · intro a ha
    obtain ⟨x, hx, rfl⟩ := Multiset.mem_map.mp ha
    obtain ⟨y, hy, hxy⟩ := hA x hx
    exact ⟨y.cells.card, Multiset.mem_map_of_mem _ hy, hxy⟩

theorem erase_filter_of_neg (p : Sentence → Bool) :
    ∀ (k : List Sentence) (s : Sentence), p s = false →
      (k.erase s).filter p = k.filter p := by
  intro k
  induction k with
  | nil => intro s _; rfl
  | cons a rest ih =>
      intro s hps
      by_cases has : a = s
      · subst has
        rw [List.erase_cons_head]
        rw [List.filter_cons]
        simp [hps]
      · rw [List.erase_cons_tail (by simp [has])]
        rw [List.filter_cons, List.filter_cons]
        by_cases hpa : p a = true
        · simp only [hpa, if_true]
          rw [ih s hps]
        · simp only [hpa, if_false]
          exact ih s hps

theorem prune_fold_eq_filter : ∀ (snap k : List Sentence),
    (∀ s : Sentence, s.cells = ∅ → k.count s ≤ snap.count s) →
    snap.foldl (fun k2 s => if s.cells = ∅ then k2.erase s else k2) k
      = k.filter (fun s => !decide (s.cells = ∅)) := by
  intro snap
  induction snap with
  | nil =>
      intro k h
      show k = _
      symm
      apply List.filter_eq_self.mpr
      intro a ha
      simp only [Bool.not_eq_true', decide_eq_false_iff_not]
      intro hcon
      have hc0 : k.count a = 0 := Nat.le_zero.mp (by simpa using h a hcon)
      have hpos : 0 < k.count a := List.count_pos_iff.mpr ha
      omega
  | cons s rest ih =>
      intro k h
      rw [List.foldl_cons]
      by_cases hse : s.cells = ∅
      · rw [if_pos hse]
        rw [ih (k.erase s) ?_]
        · exact erase_filter_of_neg _ k s (by simp [hse])
        · intro e he
          by_cases hes : e = s
          · subst hes
            have h1 := h e he
            rw [List.count_cons_self] at h1
            rw [List.count_erase_self]
            omega
          · rw [List.count_erase_of_ne hes]
            have h1 := h e he
            rw [List.count_cons_of_ne hes] at h1
            exact h1
      · rw [if_neg hse]
        apply ih
        intro e he
        have h1 := h e he
        have hes : e ≠ s := fun hcon => hse (hcon ▸ he)
        rw [List.count_cons_of_ne hes] at h1
        exact h1

theorem pass_measure (st : MinesweeperAI) (hchg : (passFn st).2 = true) :
    measureAI (passFn st).1 < measureAI st := by
  have hprune_eq : (prunePhase (resolvePhase st)).knowledge =
      (resolvePhase st).knowledge.filter (fun s => !decide (s.cells = ∅)) := by
    show (resolvePhase st).knowledge.foldl _ (resolvePhase st).knowledge = _
    exact prune_fold_eq_filter _ _ (fun s _ => le_refl _)
  have hne : ∀ x ∈ (prunePhase (resolvePhase st)).knowledge, x.cells ≠ ∅ := by
    rw [hprune_eq]
    intro x hx
    have := List.of_mem_filter hx
    simpa using this
  have h3 := subsumption_measure (prunePhase (resolvePhase st)) hne hchg
  calc measureAI (passFn st).1 < measureAI (prunePhase (resolvePhase st)) := h3
    _ ≤ measureAI (resolvePhase st) := measureAI_prunePhase _
    _ ≤ measureAI st := measureAI_resolvePhase _

theorem deductionLoop_terminates (st : MinesweeperAI) :
    ∃ (n : Nat) (st2 : MinesweeperAI), deductionLoop n st = some st2 := by
  suffices h : ∀ m : Lex (OrderDual Nat →₀ Nat), ∀ st : MinesweeperAI,
      measureAI st = m → ∃ n st2, deductionLoop n st = some st2 from h (measureAI st) st rfl
  intro m
  induction m using WellFoundedLT.induction with
  | ind m ih =>
      intro st hm
      by_cases hchg : (passFn st).2 = true
      · obtain ⟨n, st2, hn⟩ := ih (measureAI (passFn st).1)
          (hm ▸ pass_measure st hchg) (passFn st).1 rfl
        refine ⟨n + 1, st2, ?_⟩
        have e : deductionLoop (n + 1) st = (if (passFn st).2 = true
            then deductionLoop n (passFn st).1 else some (passFn st).1) := rfl
        rw [e, if_pos hchg]
        exact hn
      · refine ⟨1, (passFn st).1, ?_⟩
        have e : deductionLoop 1 st = (if (passFn st).2 = true
            then deductionLoop 0 (passFn st).1 else some (passFn st).1) := rfl
        rw [e, if_neg hchg]

theorem add_knowledge_total (st : MinesweeperAI) (cell : Cell) (count : Int) :
    ∃ (fuel : Nat) (st2 : MinesweeperAI),
      st.add_knowledge fuel cell count = some st2 := by
  obtain ⟨n, st2, hn⟩ := deductionLoop_terminates
    (let st1 := { st with moves_made := insert cell st.moves_made }
     let st2 := st1.mark_safe cell
     let p := neighborScan st2 cell count
     { st2 with knowledge := st2.knowledge ++ [⟨p.1, p.2⟩] })
  exact ⟨n, st2, hn⟩

theorem pass_removes (st : MinesweeperAI) (hchg : (passFn st).2 = true) :
    ∃ s : Sentence,
      Multiset.count s ((passFn st).1.knowledge : Multiset Sentence) <
        Multiset.count s (st.knowledge : Multiset Sentence) := by
  by_contra hcon
  push_neg at hcon
  have hle : (st.knowledge : Multiset Sentence)
      ≤ ((passFn st).1.knowledge : Multiset Sentence) :=
    Multiset.le_iff_count.mpr hcon
  have hsz : sizesM st.knowledge ≤ sizesM (passFn st).1.knowledge := by
    have h2 : Multiset.map (fun s => s.cells.card) (st.knowledge : Multiset Sentence)
        ≤ Multiset.map (fun s => s.cells.card)
            ((passFn st).1.knowledge : Multiset Sentence) :=
      Multiset.map_le_map hle
    simpa [sizesM, Multiset.map_coe] using h2
  have hmle : measureAI st ≤ measureAI (passFn st).1 := profOf_mono _ _ hsz
  exact absurd (pass_measure st hchg) (not_lt.mpr hmle)

/-- C5: for every call to add_knowledge with an in-bounds cell and a
non-negative count not exceeding the number of the cell's in-bounds
neighbors, the deduction fixed-point loop terminates (some fuel makes
add_knowledge return a final state), and each pass that keeps the loop
running either strictly shrinks the total cell-count summed over all
sentences or removes a sentence (some sentence has strictly fewer
occurrences in the knowledge list after the pass than before). -/
theorem claim_C5 :
    (∀ (st : MinesweeperAI) (cell : Cell) (count : Int),
        inBounds st.height st.width cell → 0 ≤ count →
        count ≤ (((neighborCandidates cell).filter
          (fun c => decide (¬c = cell ∧ inBounds st.height st.width c))).length : Int) →
        ∃ (fuel : Nat) (st2 : MinesweeperAI),
          st.add_knowledge fuel cell count = some st2) ∧
    (∀ st : MinesweeperAI, (passFn st).2 = true →
        totalCells (passFn st).1.knowledge < totalCells st.knowledge ∨
        ∃ s : Sentence,
          Multiset.count s ((passFn st).1.knowledge : Multiset Sentence) <
            Multiset.count s (st.knowledge : Multiset Sentence)) := by
  constructor
  · intro st cell count _ _ _
    exact add_knowledge_total st cell count
  · intro st hchg
    exact Or.inr (pass_removes st hchg)

theorem claim_C5_witness :
    (inBounds (MinesweeperAI.init 2 2).height (MinesweeperAI.init 2 2).width
        ((0:Int),(0:Int)) ∧ (0:Int) ≤ 1) ∧
    ∃ (fuel : Nat) (st2 : MinesweeperAI),
      (MinesweeperAI.init 2 2).add_knowledge fuel ((0:Int),(0:Int)) 1 = some st2 :=
  ⟨⟨by decide, by decide⟩,
    claim_C5.1 (MinesweeperAI.init 2 2) ((0:Int),(0:Int)) 1
      (by decide) (by decide) (by decide)⟩
